import Mathlib

/-!
Verification development for the Aelin_Page documentation pipeline
(`src/lib/markdown-utils.ts` and the docs module).

JavaScript strings are modeled as lists of characters (`Str`), so every
operation below is a structurally recursive, kernel-computable function.
Each definition is a direct transcription of the corresponding source
function; deviations forced by the modeling (for example, fuel used only to
make a scanner structurally recursive) are noted in the doc comments.
-/

namespace AelinPage

/-- JavaScript strings are modeled as lists of characters. -/
abbrev Str := List Char

/-! ## Generic string helpers -/

/-- Model of JavaScript `String.prototype.trim` (ASCII whitespace). -/
def trimChars (s : Str) : Str :=
  ((s.dropWhile Char.isWhitespace).reverse.dropWhile Char.isWhitespace).reverse

/-- Model of JavaScript `s.split(sep)` for a single-character separator. -/
def splitOnChar (sep : Char) : Str → List Str
  | [] => [[]]
  | c :: cs =>
    match splitOnChar sep cs with
    | [] => [[]]
    | g :: gs => if c = sep then [] :: g :: gs else (c :: g) :: gs

/-- Model of JavaScript `Array.prototype.join` with a one-character separator. -/
def joinSegs (sep : Char) : List Str → Str
  | [] => []
  | [g] => g
  | g :: g₂ :: gs => g ++ sep :: joinSegs sep (g₂ :: gs)

/-! ## Path helpers from `src/lib/markdown-utils.ts` -/

/-- Model of `toPosixPath`: replace every backslash with a forward slash. -/
def toPosixPath (filePath : Str) : Str :=
  filePath.map (fun c => if c = '\\' then '/' else c)

/-- Model of `splitPathAndSuffix`: split a raw URL at the first `?` or `#`
(whichever comes first), keeping that character and the rest as the suffix. -/
def splitPathAndSuffix : Str → Str × Str
  | [] => ([], [])
  | c :: cs =>
    if c = '?' ∨ c = '#' then ([], c :: cs)
    else
      let r := splitPathAndSuffix cs
      (c :: r.1, r.2)

/-- Characters left unescaped by JavaScript `encodeURIComponent`. -/
def uriUnreserved (c : Char) : Bool :=
  c.isAlpha || c.isDigit || c = '-' || c = '_' || c = '.' || c = '!' ||
    c = '~' || c = '*' || c = '\'' || c = '(' || c = ')'

/-- Uppercase hexadecimal digit, used by percent-escapes. -/
def hexDigitChar (n : Nat) : Char :=
  match n with
  | 0 => '0' | 1 => '1' | 2 => '2' | 3 => '3' | 4 => '4'
  | 5 => '5' | 6 => '6' | 7 => '7' | 8 => '8' | 9 => '9'
  | 10 => 'A' | 11 => 'B' | 12 => 'C' | 13 => 'D' | 14 => 'E' | _ => 'F'

/-- UTF-8 bytes of one character. -/
def utf8Bytes (c : Char) : List Nat :=
  let n := c.toNat
  if n < 128 then [n]
  else if n < 2048 then [192 + n / 64, 128 + n % 64]
  else if n < 65536 then [224 + n / 4096, 128 + n / 64 % 64, 128 + n % 64]
  else [240 + n / 262144, 128 + n / 4096 % 64, 128 + n / 64 % 64, 128 + n % 64]

/-- Model of JavaScript `encodeURIComponent`. -/
def encodeUriComponentChars (s : Str) : Str :=
  (s.map (fun c =>
    if uriUnreserved c then [c]
    else ((utf8Bytes c).map (fun b => ['%', hexDigitChar (b / 16), hexDigitChar (b % 16)])).flatten)).flatten

/-- Model of `encodePath`: percent-encode each slash-separated segment. -/
def encodePath (pathname : Str) : Str :=
  joinSegs '/' ((splitOnChar '/' pathname).map encodeUriComponentChars)

/-! ## String helpers from `src/lib/markdown-utils.ts` -/

/-- The punctuation class removed by `slugify`. -/
def slugifyPunct : Str := "`~!@#$%^&*()+=\x7b\x7d[]|\\:;\"'<>,.?/".data

/-- Collapse runs of hyphens to a single hyphen (the `-+` to `-` replace). -/
def collapseHyphens : Str → Str
  | [] => []
  | [c] => [c]
  | c :: d :: cs =>
    if c = '-' ∧ d = '-' then collapseHyphens (d :: cs)
    else c :: collapseHyphens (d :: cs)

/-- Model of `slugify`: lowercase, trim, strip the punctuation class, replace
whitespace runs with hyphens and collapse hyphen runs.  The source replaces
each whitespace run with one hyphen and then collapses hyphen runs; mapping
every whitespace character to a hyphen before the final collapse produces the
same string. -/
def slugify (input : Str) : Str :=
  collapseHyphens
    (((trimChars (input.map Char.toLower)).filter (fun c => ¬ slugifyPunct.contains c)).map
      (fun c => if c.isWhitespace then '-' else c))

/-! ## Description extraction from `src/lib/markdown-utils.ts` -/

/-- The character class removed from the chosen description line. -/
def descStripChars : Str := "*_`>#-".data

/-- The loop body of `getDescriptionFromContent`: skip heading, image,
horizontal-rule and code-fence lines; return the first remaining line with the
marker characters removed and the result trimmed. -/
def descFirstLine : List Str → Str
  | [] => []
  | l :: rest =>
    if "#".data.isPrefixOf l ∨ "![".data.isPrefixOf l ∨ "---".data.isPrefixOf l ∨
        "```".data.isPrefixOf l then
      descFirstLine rest
    else trimChars (l.filter (fun c => ¬ descStripChars.contains c))

/-- Model of `getDescriptionFromContent`: split into lines, trim each line,
drop empty lines, then scan with `descFirstLine`. -/
def getDescriptionFromContent (content : Str) : Str :=
  descFirstLine (((splitOnChar '\n' content).map trimChars).filter (fun l => ¬ l.isEmpty))

/-- Model of the description resolution in `readDocsRecursively`
(docs module): a front-matter description that is a string is trimmed, and a
falsy (empty) result falls back to the content-derived description. -/
def resolveDescription (metaDescription : Option Str) (content : Str) : Str :=
  let descriptionFromMeta := match metaDescription with
    | some s => trimChars s
    | none => []
  if descriptionFromMeta ≠ [] then descriptionFromMeta
  else getDescriptionFromContent content

/-! ## Date normalization from `src/lib/markdown-utils.ts` -/

/-- The possible shapes of a front-matter `date` value after YAML parsing:
a `Date` object (milliseconds since the Unix epoch), a string, an absent
value, or a value of any other type. -/
inductive FrontMatterDate where
  | dateVal (msSinceEpoch : Int)
  | strVal (s : Str)
  | absent
  | otherVal
deriving DecidableEq

/-- Gregorian leap-year test. -/
def isLeapYear (y : Int) : Bool :=
  (y % 4 == 0 && y % 100 != 0) || (y % 400 == 0)

/-- Number of days of a Gregorian year. -/
def daysInYear (y : Int) : Int := if isLeapYear y then 366 else 365

/-- Month lengths of a year, January first. -/
def monthLengthsOf (leap : Bool) : List Int :=
  [31, if leap then 29 else 28, 31, 30, 31, 30, 31, 31, 30, 31, 30, 31]

/-- Walk years forward from a starting year, consuming whole years from a day
count; the fuel only bounds the walk and covers every instant the pipeline can
encounter. -/
def yearLoop : Nat → Int → Int → Int × Int
  | 0, y, d => (y, d)
  | fuel + 1, y, d =>
    if daysInYear y ≤ d then yearLoop fuel (y + 1) (d - daysInYear y) else (y, d)

/-- Walk the month table, consuming whole months from a day-of-year count. -/
def monthLoop : List Int → Int → Int → Int × Int
  | [], m, d => (m, d)
  | len :: rest, m, d =>
    if len ≤ d then monthLoop rest (m + 1) (d - len) else (m, d)

/-- Gregorian calendar date (year, month, day) from days since 1970-01-01.
This models the UTC calendar breakdown performed by JavaScript
`Date.prototype.toISOString` for instants from the epoch through year 9999
(the only range the claims exercise), by walking the calendar forward from
1970. -/
def civilFromDays (z : Int) : Int × Int × Int :=
  let yr := yearLoop 9000 1970 z
  let mr := monthLoop (monthLengthsOf (isLeapYear yr.1)) 1 yr.2
  (yr.1, mr.1, mr.2 + 1)

/-- Decimal digit character. -/
def digitChar (n : Nat) : Char :=
  match n with
  | 0 => '0' | 1 => '1' | 2 => '2' | 3 => '3' | 4 => '4'
  | 5 => '5' | 6 => '6' | 7 => '7' | 8 => '8' | _ => '9'

/-- Two-digit zero-padded decimal rendering. -/
def pad2 (n : Nat) : Str := [digitChar (n / 10 % 10), digitChar (n % 10)]

/-- Four-digit zero-padded decimal rendering. -/
def pad4 (n : Nat) : Str :=
  [digitChar (n / 1000 % 10), digitChar (n / 100 % 10), digitChar (n / 10 % 10),
    digitChar (n % 10)]

/-- Model of `date.toISOString().slice(0, 10)` for dates with four-digit
years: the UTC calendar date rendered as `YYYY-MM-DD`. -/
def isoDateChars (ms : Int) : Str :=
  let c := civilFromDays (ms / 86400000)
  pad4 c.1.toNat ++ '-' :: pad2 c.2.1.toNat ++ '-' :: pad2 c.2.2.toNat

/-- Model of `normalizeDate`: `Date` values are rendered as the date part of
their ISO timestamp, string values are returned unchanged, and anything else
becomes the empty string. -/
def normalizeDate : FrontMatterDate → Str
  | .dateVal ms => isoDateChars ms
  | .strVal s => s
  | _ => []

/-- Decidable check that a string has the shape of an ISO calendar date
`YYYY-MM-DD` with a plausible month (1 to 12) and day (1 to 31). -/
def isIsoDateString (s : Str) : Bool :=
  match s with
  | [y₁, y₂, y₃, y₄, h₁, m₁, m₂, h₂, d₁, d₂] =>
    y₁.isDigit && y₂.isDigit && y₃.isDigit && y₄.isDigit &&
    (h₁ == '-') && (h₂ == '-') && m₁.isDigit && m₂.isDigit && d₁.isDigit && d₂.isDigit &&
    (let mm := (m₁.toNat - 48) * 10 + (m₂.toNat - 48)
     let dd := (d₁.toNat - 48) * 10 + (d₂.toNat - 48)
     decide (1 ≤ mm) && decide (mm ≤ 12) && decide (1 ≤ dd) && decide (dd ≤ 31))
  | _ => false

/-! ## Obsidian-embed preprocessing from `src/lib/markdown-utils.ts` -/

/-- Attempt to match the body of an Obsidian embed immediately after `![[`:
a nonempty run of characters other than `]` and `|` (the target), then either
`]]`, or `|` followed by a nonempty run of characters other than `]` (the alt
text) and `]]`.  Returns the raw target, the raw alt (empty when absent) and
the rest of the input.  This mirrors the regex
`!\[\[([^\]\|]+?)(?:\|([^\]]+))?\]\]` used by the source. -/
def tryEmbedAt (cs : Str) : Option (Str × Str × Str) :=
  if (cs.takeWhile (fun c => ¬(c = ']' ∨ c = '|'))).isEmpty then none
  else
    match cs.dropWhile (fun c => ¬(c = ']' ∨ c = '|')) with
    | ']' :: ']' :: rest => some (cs.takeWhile (fun c => ¬(c = ']' ∨ c = '|')), [], rest)
    | '|' :: r₂ =>
      if (r₂.takeWhile (fun c => ¬ c = ']')).isEmpty then none
      else
        match r₂.dropWhile (fun c => ¬ c = ']') with
        | ']' :: ']' :: rest =>
          some (cs.takeWhile (fun c => ¬(c = ']' ∨ c = '|')),
            r₂.takeWhile (fun c => ¬ c = ']'), rest)
        | _ => none
    | _ => none

/-- The replacement the source builds for one embed match: trim the target,
normalize backslashes to slashes, strip every leading slash and then one
leading `./`, trim the alt text, and emit standard image syntax, with the
target made root-relative when requested. -/
def embedReplacement (rootRelative : Bool) (rawTarget rawAlt : Str) : Str :=
  let target₀ := (toPosixPath (trimChars rawTarget)).dropWhile (fun c => c = '/')
  let target := if "./".data.isPrefixOf target₀ then target₀.drop 2 else target₀
  let alt := trimChars rawAlt
  "![".data ++ alt ++ "](".data ++ (if rootRelative then '/' :: target else target) ++ ")".data

/-- Left-to-right scanner realizing the global regex replace of
`preprocessObsidianMarkdown`: at each position, if the input starts with `![[`
and the embed body matches, emit the replacement and continue after the match;
otherwise copy one character and continue (the regex engine retries at the
next position).  The fuel argument only makes the recursion structural and is
irrelevant once it bounds the input length. -/
def embedScan (rootRelative : Bool) : Nat → Str → Str
  | 0, cs => cs
  | _ + 1, [] => []
  | fuel + 1, c :: cs =>
    if c = '!' ∧ cs.take 2 = "[[".data then
      match tryEmbedAt (cs.drop 2) with
      | some (t, a, rest) => embedReplacement rootRelative t a ++ embedScan rootRelative fuel rest
      | none => c :: embedScan rootRelative fuel cs
    else c :: embedScan rootRelative fuel cs

/-- Model of `preprocessObsidianMarkdown`. -/
def preprocessObsidianMarkdown (markdown : Str) (rootRelative : Bool) : Str :=
  embedScan rootRelative markdown.length markdown

/-! ## Data model of the docs module -/

/-- Model of `DocHeading`. -/
structure DocHeading where
  id : Str
  level : Nat
  text : Str
deriving DecidableEq

/-- Model of `DocRecord`. -/
structure DocRecord where
  relPath : Str
  slug : List Str
  title : Str
  description : Str
  date : Str
  contentHtml : Str
  headings : List DocHeading
deriving DecidableEq

/-- Model of `DocSearchEntry`. -/
structure DocSearchEntry where
  relPath : Str
  slug : List Str
  title : Str
  description : Str
deriving DecidableEq

/-- Model of `DocTreeNode`: a folder with a name, key and children, or a file
carrying the navigation fields of its document. -/
inductive DocTreeNode where
  | folder (name key : Str) (children : List DocTreeNode)
  | file (name key relPath : Str) (slug : List Str) (title : Str)

/-! ## Link resolution from the docs module -/

/-- Walk already-split path segments, dropping empty and `.` segments and
popping the accumulated stack on `..`; popping an empty stack fails.  This is
the loop of `resolveDocsRelativePath`. -/
def walkSegments : List Str → List Str → Option (List Str)
  | [], acc => some acc
  | seg :: rest, acc =>
    if seg = [] ∨ seg = ".".data then walkSegments rest acc
    else if seg = "..".data then
      match acc with
      | [] => none
      | _ :: _ => walkSegments rest acc.dropLast
    else walkSegments rest (acc ++ [seg])

/-- Decides whether the walk of `walkSegments` ever pops an empty stack. -/
def walkUnderflows : List Str → List Str → Bool
  | [], _ => false
  | seg :: rest, acc =>
    if seg = [] ∨ seg = ".".data then walkUnderflows rest acc
    else if seg = "..".data then
      match acc with
      | [] => true
      | _ :: _ => walkUnderflows rest acc.dropLast
    else walkUnderflows rest (acc ++ [seg])

/-- The segment list `resolveDocsRelativePath` walks: for a `/`-leading path
the segments of the path without its leading slash, otherwise the current
document's directory segments followed by the path's segments. -/
def resolveParts (currentDocPath rawPath : Str) : List Str :=
  match toPosixPath rawPath with
  | '/' :: tail => splitOnChar '/' tail
  | other => (splitOnChar '/' currentDocPath).dropLast ++ splitOnChar '/' other

/-- Model of `resolveDocsRelativePath`: normalize backslashes, build the
segment list, walk it, and fail on traversal underflow or an empty result. -/
def resolveDocsRelativePath (currentDocPath rawPath : Str) : Option Str :=
  match walkSegments (resolveParts currentDocPath rawPath) [] with
  | none => none
  | some [] => none
  | some safeParts => some (joinSegs '/' safeParts)

/-- Model of the scheme test `/^(https?:|mailto:|tel:|#|data:|\/\/)/i` used by
`resolveMarkdownHref`. -/
def isExternalDocHref (href : Str) : Bool :=
  let l := href.map Char.toLower
  "http:".data.isPrefixOf l || "https:".data.isPrefixOf l || "mailto:".data.isPrefixOf l ||
    "tel:".data.isPrefixOf l || "#".data.isPrefixOf l || "data:".data.isPrefixOf l ||
    "//".data.isPrefixOf l

/-- Model of `toDocHref`. -/
def toDocHref (slug : List Str) : Str :=
  if slug = [] then "/docs".data
  else "/docs/".data ++ encodePath (joinSegs '/' slug)

/-- Drop the last `n` characters, as JavaScript `s.slice(0, -n)`. -/
def dropRight (n : Nat) (s : Str) : Str := s.take (s.length - n)

/-- Model of `resolveMarkdownHref`: external or empty hrefs pass through;
otherwise the pathname is resolved relative to the current document and mapped
to a document route (for a Markdown extension or a known sibling document) or
to the asset route, preserving the query/fragment suffix; failed resolution
returns the href unchanged. -/
def resolveMarkdownHref (href currentDocPath : Str) (docPathSet : List Str) : Str :=
  if href = [] then href
  else if isExternalDocHref href then href
  else
    let ps := splitPathAndSuffix href
    if ps.1 = [] then href
    else
      match resolveDocsRelativePath currentDocPath ps.1 with
      | none => href
      | some resolvedPath =>
        let lower := resolvedPath.map Char.toLower
        if ".md".data.isSuffixOf lower then
          toDocHref (splitOnChar '/' (dropRight 3 resolvedPath)) ++ ps.2
        else if ".mdx".data.isSuffixOf lower then
          toDocHref (splitOnChar '/' (dropRight 4 resolvedPath)) ++ ps.2
        else if (resolvedPath ++ ".md".data) ∈ docPathSet then
          toDocHref (splitOnChar '/' resolvedPath) ++ ps.2
        else if (resolvedPath ++ ".mdx".data) ∈ docPathSet then
          toDocHref (splitOnChar '/' resolvedPath) ++ ps.2
        else "/api/docs-asset/".data ++ encodePath resolvedPath ++ ps.2

/-! ## The heading hook of `renderMarkdownToHtml` -/

/-- The base slug of a heading: `slugify(text) || "section"`. -/
def headingBase (text : Str) : Str :=
  if slugify text = [] then "section".data else slugify text

/-- Decimal rendering of a counter, as JavaScript string interpolation. -/
def natChars (n : Nat) : Str := Nat.toDigits 10 n

/-- The heading hook run over the document's headings in order, starting from
the given per-render counter table: returns every heading annotated with its
assigned id, together with the recorded list of level-2/3 headings.  This
transcribes `renderer.heading`: the id is the base slug for a first occurrence
and `base-count` for repeats, the counter is incremented, and only headings
with depth 2 or 3 are pushed onto the output list. -/
def runHeadingHook (counts : Str → Nat) :
    List (Str × Nat) → List (Str × Str × Nat) × List DocHeading
  | [] => ([], [])
  | (text, depth) :: rest =>
    let base := headingBase text
    let count := counts base
    let id := if count = 0 then base else base ++ '-' :: natChars count
    let r := runHeadingHook (fun b => if b = base then count + 1 else counts b) rest
    ((text, id, depth) :: r.1,
      (if 2 ≤ depth ∧ depth ≤ 3 then [⟨id, depth, text⟩] else []) ++ r.2)

/-- The heading hook as invoked by one render: all counters start at zero. -/
def renderHeadings (headingTokens : List (Str × Nat)) :
    List (Str × Str × Nat) × List DocHeading :=
  runHeadingHook (fun _ => 0) headingTokens

/-! ## Document lookup from the docs module -/

/-- Model of `findDocBySlug`. -/
def findDocBySlug (docs : List DocRecord) (slug : Option (List Str)) : Option DocRecord :=
  match docs with
  | [] => none
  | _ :: _ =>
    match slug with
    | some (s₀ :: srest) =>
      let key := joinSegs '/' (s₀ :: srest)
      docs.find? (fun d => joinSegs '/' d.slug = key)
    | _ =>
      match docs.find? (fun d => d.relPath = "getting-started/welcome.md".data) with
      | some d => some d
      | none =>
        match docs.find? (fun d => "/README.md".data.isSuffixOf d.relPath) with
        | some d => some d
        | none => docs.head?

/-! ## Tree construction from the docs module -/

/-- Key of a child node: the parent's accumulated path extended by a segment
(`accumulatedPath ? accumulatedPath + "/" + segment : segment`). -/
def joinKey (pfx seg : Str) : Str :=
  if pfx = [] then seg else pfx ++ '/' :: seg

/-- Name of a tree node. -/
def nodeName : DocTreeNode → Str
  | .folder n _ _ => n
  | .file n _ _ _ _ => n

/-- Folder test. -/
def isFolderNode : DocTreeNode → Bool
  | .folder _ _ _ => true
  | .file _ _ _ _ _ => false

/-- File test. -/
def isFileNode : DocTreeNode → Bool
  | .folder _ _ _ => false
  | .file _ _ _ _ _ => true

/-- Replace the children of the first folder with the given name by applying
`g`, returning `none` when no such folder exists.  This realizes the
`find`-then-mutate step of `buildDocsTree`. -/
def replaceFolderChildren (name : Str) (g : List DocTreeNode → List DocTreeNode) :
    List DocTreeNode → Option (List DocTreeNode)
  | [] => none
  | .folder n k c :: t =>
    if n = name then some (.folder n k (g c) :: t)
    else
      match replaceFolderChildren name g t with
      | some t' => some (.folder n k c :: t')
      | none => none
  | other :: t =>
    match replaceFolderChildren name g t with
    | some t' => some (other :: t')
    | none => none

/-- Insert one file node into a sibling level: with no folder segments left the
file is appended; otherwise the walk descends into the first folder with the
segment's name, creating (and appending) it when absent.  This transcribes the
per-document loop of `buildDocsTree`. -/
def insertIntoLevel (level : List DocTreeNode) (pfx : Str) :
    List Str → DocTreeNode → List DocTreeNode
  | [], f => level ++ [f]
  | s :: rest, f =>
    match replaceFolderChildren s (fun c => insertIntoLevel c (joinKey pfx s) rest f) level with
    | some level' => level'
    | none => level ++ [.folder s (joinKey pfx s) (insertIntoLevel [] (joinKey pfx s) rest f)]

/-- The file node `buildDocsTree` pushes for one document. -/
def docFileNode (doc : DocRecord) : DocTreeNode :=
  let segments := splitOnChar '/' doc.relPath
  .file (segments.getLast?.getD doc.title) doc.relPath doc.relPath doc.slug doc.title

/-- The node comparator of `sortTree`: folders before files, then the name
comparison.  The comparison function is a parameter modeling
`localeCompare(name, "zh-CN")`. -/
def nodeCmp (cmp : Str → Str → Int) (a b : DocTreeNode) : Int :=
  match a, b with
  | .folder _ _ _, .file _ _ _ _ _ => -1
  | .file _ _ _ _ _, .folder _ _ _ => 1
  | _, _ => cmp (nodeName a) (nodeName b)

/-- Boolean order induced by the comparator, as used by a comparator sort. -/
def nodeLe (cmp : Str → Str → Int) (a b : DocTreeNode) : Bool :=
  nodeCmp cmp a b ≤ 0

mutual

/-- Sort the children of a folder recursively; file nodes are unchanged. -/
def sortTreeNode (cmp : Str → Str → Int) : DocTreeNode → DocTreeNode
  | .folder n k c => .folder n k ((sortNodeList cmp c).mergeSort (nodeLe cmp))
  | .file n k r s t => .file n k r s t

/-- Apply `sortTreeNode` to every node of a list. -/
def sortNodeList (cmp : Str → Str → Int) : List DocTreeNode → List DocTreeNode
  | [] => []
  | n :: t => sortTreeNode cmp n :: sortNodeList cmp t

end

/-- Model of `sortTree`: every sibling list (this one and, recursively, all
children) is sorted by the node comparator.  The source sorts a sibling list
in place and then recurses into the children; since the comparator reads only
the node type and name, sorting the recursively-sorted children produces the
same tree. -/
def sortTree (cmp : Str → Str → Int) (nodes : List DocTreeNode) : List DocTreeNode :=
  (sortNodeList cmp nodes).mergeSort (nodeLe cmp)

/-- Model of `buildDocsTree`: fold every document into the tree (walking and
creating folder nodes along its directory path, then appending its file node)
and sort the result. -/
def buildDocsTree (cmp : Str → Str → Int) (docs : List DocRecord) : List DocTreeNode :=
  sortTree cmp
    (docs.foldl
      (fun root doc =>
        insertIntoLevel root [] ((splitOnChar '/' doc.relPath).dropLast) (docFileNode doc))
      [])

/-! ## Snapshot cache from the docs module -/

/-- Model of `DocsVersion`: the content-root fingerprint. -/
structure DocsVersion where
  fileCount : Int
  maxMtimeMs : Int
deriving DecidableEq

/-- Model of `DocsSnapshot`. -/
structure DocsSnapshot where
  docs : List DocRecord
  slugs : List (List Str)
  tree : List DocTreeNode
  searchEntries : List DocSearchEntry

/-- Model of the module-level cache fields `cachedSnapshot` and
`cachedVersion`. -/
structure DocsCacheState where
  cachedSnapshot : Option DocsSnapshot
  cachedVersion : Option DocsVersion

/-- Model of `isSameDocsVersion`. -/
def isSameDocsVersion (left right : DocsVersion) : Bool :=
  left.fileCount == right.fileCount && left.maxMtimeMs == right.maxMtimeMs

/-- Model of the parsed `__meta` field of a persisted snapshot: the schema
version if present, and the version fingerprint whose fields are `none` when
missing or not finite numbers. -/
structure ParsedSnapshotMeta where
  schemaVersion : Option Int
  version : Option (Option Int × Option Int)

/-- Model of a JSON-parsed persisted snapshot: `none` components stand for
fields that are missing or not arrays. -/
structure ParsedSnapshot where
  meta : Option ParsedSnapshotMeta
  docs : Option (List DocRecord)
  slugs : Option (List (List Str))
  tree : Option (List DocTreeNode)
  searchEntries : Option (List DocSearchEntry)

/-- Model of the states the snapshot file on disk can be in, at the level the
pipeline observes them: absent, unreadable or unparsable, or parsed. -/
inductive SnapshotDisk where
  | missing
  | readOrParseError
  | parsed (p : ParsedSnapshot)

/-- Model of `SNAPSHOT_SCHEMA_VERSION`. -/
def snapshotSchemaVersion : Int := 2

/-- Model of `getPersistedSnapshotMeta`: requires a `__meta` object with the
expected schema version and a version whose fields are both finite numbers. -/
def getPersistedSnapshotMeta (p : ParsedSnapshot) : Option DocsVersion :=
  match p.meta with
  | none => none
  | some meta =>
    if meta.schemaVersion ≠ some snapshotSchemaVersion then none
    else
      match meta.version with
      | none => none
      | some (fileCount?, maxMtimeMs?) =>
        match fileCount?, maxMtimeMs? with
        | some fileCount, some maxMtimeMs => some ⟨fileCount, maxMtimeMs⟩
        | _, _ => none

/-- Model of `getValidatedSnapshotFromDisk`: a missing, unreadable or
unparsable file, a bad or mismatched `__meta`, a fingerprint different from
the expected one, or non-array `docs`/`tree` all yield `none`; otherwise the
snapshot is adopted with non-array `slugs`/`searchEntries` defaulted to `[]`. -/
def getValidatedSnapshotFromDisk (disk : SnapshotDisk) (expectedVersion : DocsVersion) :
    Option DocsSnapshot :=
  match disk with
  | .missing => none
  | .readOrParseError => none
  | .parsed p =>
    match getPersistedSnapshotMeta p with
    | none => none
    | some version =>
      if ¬ isSameDocsVersion version expectedVersion then none
      else
        match p.docs, p.tree with
        | some docs, some tree =>
          some ⟨docs, p.slugs.getD [], tree, p.searchEntries.getD []⟩
        | _, _ => none

/-- Abstract filesystem environment sufficient for `getSnapshot`: whether the
content root exists, the current fingerprint `computeDocsVersion` would
return, the snapshot a full `createSnapshot` build would produce, the state of
the persisted snapshot file, and whether writing the snapshot file would
fail. -/
structure DocsFsEnv where
  rootExists : Bool
  version : DocsVersion
  build : DocsSnapshot
  disk : SnapshotDisk
  writeFails : Bool

/-- The empty snapshot returned when the content root is missing. -/
def emptySnapshot : DocsSnapshot := ⟨[], [], [], []⟩

/-- Model of `writeSnapshotToDisk`: a failing write raises and is swallowed by
the surrounding try/catch, so the call reduces to a unit result either way. -/
def writeSnapshotToDisk (env : DocsFsEnv) : Unit :=
  if env.writeFails then () else ()

/-- Model of `getSnapshot` in a non-production (live-editing) process.
Returns the served snapshot, the new cache state, and the number of full
`createSnapshot` rebuilds the access performed. -/
def getSnapshotDev (env : DocsFsEnv) (st : DocsCacheState) :
    DocsSnapshot × DocsCacheState × Nat :=
  if env.rootExists = false then
    (emptySnapshot, ⟨some emptySnapshot, some ⟨0, 0⟩⟩, 0)
  else
    let currentVersion := env.version
    match st.cachedSnapshot, st.cachedVersion with
    | some snapshot, some version =>
      if isSameDocsVersion version currentVersion then (snapshot, st, 0)
      else (env.build, ⟨some env.build, some currentVersion⟩, 1)
    | _, _ => (env.build, ⟨some env.build, some currentVersion⟩, 1)

/-- Model of `getSnapshot` in a production process: a warm cache is served
as is; a cold cache adopts a validated persisted snapshot when its fingerprint
matches, and otherwise performs one full rebuild and attempts (best effort) to
persist it. -/
def getSnapshotProd (env : DocsFsEnv) (st : DocsCacheState) :
    DocsSnapshot × DocsCacheState × Nat :=
  if env.rootExists = false then
    (emptySnapshot, ⟨some emptySnapshot, some ⟨0, 0⟩⟩, 0)
  else
    match st.cachedSnapshot with
    | some snapshot => (snapshot, st, 0)
    | none =>
      let currentVersion := env.version
      match getValidatedSnapshotFromDisk env.disk currentVersion with
      | some diskSnapshot => (diskSnapshot, ⟨some diskSnapshot, some currentVersion⟩, 0)
      | none =>
        let _ := writeSnapshotToDisk env
        (env.build, ⟨some env.build, some currentVersion⟩, 1)

/-! ## Specification-side definitions used to state the claims -/

/-- Whether a string contains the character sequence `![[` anywhere
(the only places the embed regex can start a match). -/
def hasEmbedStart : Str → Bool
  | [] => false
  | c :: cs => ("![[".data.isPrefixOf (c :: cs)) || hasEmbedStart cs

/-- Loop of `claimEmphasisStripped`. -/
def claimEmphasisLoop : List Str → Str
  | [] => []
  | l :: rest =>
    if "#".data.isPrefixOf l ∨ "![".data.isPrefixOf l ∨ "---".data.isPrefixOf l ∨
        "```".data.isPrefixOf l then
      claimEmphasisLoop rest
    else l.filter (fun c => ¬ ("*_`".data.contains c))

/-- The description transformation exactly as the claim words it: the first
line that is not a heading, image, horizontal rule or code fence, with only
the Markdown emphasis markers (asterisk, underscore, backtick) stripped.
Written from the claim's sentence, for comparison against the source's
`getDescriptionFromContent`. -/
def claimEmphasisStripped (content : Str) : Str :=
  claimEmphasisLoop (((splitOnChar '\n' content).map trimChars).filter (fun l => ¬ l.isEmpty))

/-- The id the claim predicts for a heading, given the headings already
processed: the base slug for a first occurrence of that base, and
`base-count` for a repeat, where `count` is the number of earlier headings
with the same base slug. -/
def headingIdSpec (processed : List (Str × Nat)) (text : Str) : Str :=
  let base := headingBase text
  let n := processed.countP (fun e => headingBase e.1 == base)
  if n = 0 then base else base ++ '-' :: natChars n

/-- The fully annotated heading list the claim predicts, threading the list
of already-processed headings. -/
def headingSpecList (processed : List (Str × Nat)) :
    List (Str × Nat) → List (Str × Str × Nat)
  | [] => []
  | (t, d) :: r => (t, headingIdSpec processed t, d) :: headingSpecList (processed ++ [(t, d)]) r

/-! ## Proof-side views of the tree builder -/

/-- One document, as the tree builder consumes it: the folder segments of its
path and its file node. -/
abbrev DocEntry := List Str × DocTreeNode

/-- The entry `buildDocsTree` inserts for a document. -/
def entryOf (doc : DocRecord) : DocEntry :=
  ((splitOnChar '/' doc.relPath).dropLast, docFileNode doc)

/-- Folding a list of entries into a sibling level. -/
def buLevel (pfx : Str) (acc : List DocTreeNode) (es : List DocEntry) : List DocTreeNode :=
  es.foldl (fun l e => insertIntoLevel l pfx e.1 e.2) acc

/-- Names of the folder nodes of a sibling level, in order. -/
def levelFolderNames (l : List DocTreeNode) : List Str :=
  l.filterMap (fun n => match n with | .folder nm _ _ => some nm | _ => none)

/-- The file nodes of a sibling level, in order. -/
def levelFiles (l : List DocTreeNode) : List DocTreeNode := l.filter isFileNode

/-- Children of the first folder with the given name. -/
def getFolderChildren (name : Str) : List DocTreeNode → Option (List DocTreeNode)
  | [] => none
  | .folder n _ c :: t => if n = name then some c else getFolderChildren name t
  | .file _ _ _ _ _ :: t => getFolderChildren name t

/-- First segments of the entries that descend into a folder. -/
def headsOf (es : List DocEntry) : List Str := es.filterMap (fun e => e.1.head?)

/-- The sub-entries an entry list contributes to the folder with the given
name: the entries whose first segment is that name, with it removed. -/
def stepEntries (name : Str) (es : List DocEntry) : List DocEntry :=
  es.filterMap (fun e =>
    match e.1 with
    | s :: r => if s = name then some ((r, e.2) : DocEntry) else none
    | [] => none)

/-- Folder names accumulated by inserting a list of entries, in creation
order: a new first segment is appended when unseen. -/
def accNames (ns : List Str) : List DocEntry → List Str
  | [] => ns
  | e :: rest =>
    match e.1 with
    | [] => accNames ns rest
    | s :: _ => accNames (if s ∈ ns then ns else ns ++ [s]) rest

/-- Termination measure for recursion over entry lists by folder depth. -/
def entriesMeasure (es : List DocEntry) : Nat := (es.map (fun e => e.1.length + 1)).sum

/-- Every folder of a tree is keyed by its accumulated path. -/
inductive KeysOK : Str → DocTreeNode → Prop where
  | file : ∀ pfx n k r s t, KeysOK pfx (.file n k r s t)
  | folder : ∀ pfx n c, (∀ m ∈ c, KeysOK (joinKey pfx n) m) →
      KeysOK pfx (.folder n (joinKey pfx n) c)

/-- Every sibling list of a tree is sorted by the node comparator. -/
inductive SortedTree (cmp : Str → Str → Int) : DocTreeNode → Prop where
  | file : ∀ n k r s t, SortedTree cmp (.file n k r s t)
  | folder : ∀ n k c, List.Pairwise (fun a b => nodeLe cmp a b = true) c →
      (∀ m ∈ c, SortedTree cmp m) → SortedTree cmp (.folder n k c)

/-- The modeling assumption on the name comparison (`localeCompare` under a
fixed locale): it behaves as a linear order on names. -/
structure IsLinearCmp (cmp : Str → Str → Int) : Prop where
  total : ∀ a b, cmp a b ≤ 0 ∨ cmp b a ≤ 0
  le_trans : ∀ a b c, cmp a b ≤ 0 → cmp b c ≤ 0 → cmp a c ≤ 0
  antisymm : ∀ a b, cmp a b ≤ 0 → cmp b a ≤ 0 → a = b

/-- The file nodes an entry list contributes directly at its level: the nodes
of the entries with no folder segments left, in order. -/
def filesOf (es : List DocEntry) : List DocTreeNode :=
  es.filterMap (fun e => match e.1 with | [] => some e.2 | _ :: _ => none)

/-- The canonical folder node a level grown from the empty level holds for a
name: keyed by the joined prefix, with children built from the entries that
descend into it. -/
def canonFolder (pfx : Str) (es : List DocEntry) (nm : Str) : DocTreeNode :=
  .folder nm (joinKey pfx nm) (buLevel (joinKey pfx nm) [] (stepEntries nm es))

/-- Every entry carries a file node (true of the entries `buildDocsTree`
inserts). -/
def FilesOnly (es : List DocEntry) : Prop := ∀ e ∈ es, isFileNode e.2 = true

/-- An entry's node is determined by its segment list together with the node
name — the entry-level form of relPath uniqueness of the document list. -/
def EntryInj (es : List DocEntry) : Prop :=
  ∀ a ∈ es, ∀ b ∈ es, a.1 = b.1 → nodeName a.2 = nodeName b.2 → a.2 = b.2

/-- Every folder of a sibling list is keyed by the level prefix joined with
its own name. -/
def LevelKeys (pfx : Str) (l : List DocTreeNode) : Prop :=
  ∀ n k c, DocTreeNode.folder n k c ∈ l → k = joinKey pfx n

/-! ## Concrete fixtures used by witnesses -/

/-- A concrete comparator: the lexicographic string order. -/
def cmpLex (a b : Str) : Int :=
  if String.mk a < String.mk b then -1 else if String.mk b < String.mk a then 1 else 0

/-- Sample document at the content root. -/
def sampleDocA : DocRecord :=
  ⟨"a.md".data, ["a".data], "A".data, [], [], [], []⟩

/-- Sample document in a subfolder. -/
def sampleDocB : DocRecord :=
  ⟨"sub/b.md".data, ["sub".data, "b".data], "B".data, [], [], [], []⟩

/-- Sample filesystem environment for the cache theorems. -/
def sampleEnv : DocsFsEnv :=
  ⟨true, ⟨5, 100⟩, emptySnapshot, .missing, false⟩

/-! # Theorems -/

/-! ## String helper lemmas -/

theorem splitOnChar_ne_nil (sep : Char) (s : Str) : splitOnChar sep s ≠ [] := by
  cases s with
  | nil => simp [splitOnChar]
  | cons c cs =>
    simp only [splitOnChar]
    cases h : splitOnChar sep cs with
    | nil => simp
    | cons g gs => by_cases hc : c = sep <;> simp [hc]

theorem joinSegs_splitOnChar (sep : Char) (s : Str) :
    joinSegs sep (splitOnChar sep s) = s := by
  induction s with
  | nil => rfl
  | cons c cs ih =>
    simp only [splitOnChar]
    cases h : splitOnChar sep cs with
    | nil => exact absurd h (splitOnChar_ne_nil sep cs)
    | cons g gs =>
      rw [h] at ih
      by_cases hc : c = sep
      · subst hc
        simpa [joinSegs] using ih
      · cases gs with
        | nil => simpa [joinSegs, hc] using ih
        | cons g₂ gs₂ => simpa [joinSegs, hc] using ih

theorem splitOnChar_injective (sep : Char) {s₁ s₂ : Str}
    (h : splitOnChar sep s₁ = splitOnChar sep s₂) : s₁ = s₂ := by
  have h₁ := joinSegs_splitOnChar sep s₁
  have h₂ := joinSegs_splitOnChar sep s₂
  rw [← h₁, ← h₂, h]

/-! ## Segment-walk lemmas for the link resolver -/

theorem walkSegments_eq_none_iff (parts : List Str) :
    ∀ acc, walkSegments parts acc = none ↔ walkUnderflows parts acc = true := by
  induction parts with
  | nil => intro acc; simp [walkSegments, walkUnderflows]
  | cons seg rest ih =>
    intro acc
    simp only [walkSegments, walkUnderflows]
    by_cases h₁ : seg = [] ∨ seg = ".".data
    · simp [h₁, ih]
    · by_cases h₂ : seg = "..".data
      · cases acc with
        | nil => simp [h₁, h₂]
        | cons a as => simp [h₁, h₂, ih]
      · simp [h₁, h₂, ih]

theorem walkSegments_safe (parts : List Str) :
    ∀ acc segs, walkSegments parts acc = some segs →
      (∀ s ∈ acc, s ≠ [] ∧ s ≠ ".".data ∧ s ≠ "..".data) →
      ∀ s ∈ segs, s ≠ [] ∧ s ≠ ".".data ∧ s ≠ "..".data := by
  induction parts with
  | nil =>
    intro acc segs h hacc
    simp only [walkSegments, Option.some.injEq] at h
    exact h ▸ hacc
  | cons seg rest ih =>
    intro acc segs h hacc
    simp only [walkSegments] at h
    by_cases h₁ : seg = [] ∨ seg = ".".data
    · rw [if_pos h₁] at h
      exact ih acc segs h hacc
    · rw [if_neg h₁] at h
      by_cases h₂ : seg = "..".data
      · rw [if_pos h₂] at h
        cases acc with
        | nil => simp at h
        | cons a as =>
          refine ih _ segs h ?_
          intro s hs
          exact hacc s (List.dropLast_subset _ hs)
      · rw [if_neg h₂] at h
        refine ih _ segs h ?_
        intro s hs
        rcases List.mem_append.1 hs with hs' | hs'
        · exact hacc s hs'
        · rcases List.mem_singleton.1 hs' with rfl
          push_neg at h₁
          exact ⟨h₁.1, h₁.2, h₂⟩

theorem resolveMarkdownHref_of_unresolved (href currentDocPath : Str) (docPathSet : List Str)
    (h : resolveDocsRelativePath currentDocPath (splitPathAndSuffix href).1 = none) :
    resolveMarkdownHref href currentDocPath docPathSet = href := by
  unfold resolveMarkdownHref
  by_cases h₀ : href = []
  · simp [h₀]
  · by_cases hext : isExternalDocHref href = true
    · simp [h₀, hext]
    · by_cases hp : (splitPathAndSuffix href).1 = []
      · simp [h₀, hext, hp]
      · simp [h₀, hext, hp, h]

/-! ## Claim C1 -/

/-- Claim C1: for every raw href and referencing document path, if walking the
href's path segments (the document's directory segments prefixed for paths not
starting with a slash, empty and `.` segments dropped, `..` popping) ever pops
an empty stack, then `resolveMarkdownHref` returns the original href
unchanged; and whenever `resolveDocsRelativePath` succeeds, the resolved path
is a join of segments none of which is empty, `.` or `..`, so the result never
escapes the content root. -/
theorem c1_traversal_safety (href currentDocPath : Str) (docPathSet : List Str)
    (hUnder : walkUnderflows (resolveParts currentDocPath (splitPathAndSuffix href).1) [] = true) :
    resolveMarkdownHref href currentDocPath docPathSet = href ∧
    (∀ rawPath resolved, resolveDocsRelativePath currentDocPath rawPath = some resolved →
      ∃ segs, resolved = joinSegs '/' segs ∧ segs ≠ [] ∧
        ∀ s ∈ segs, s ≠ [] ∧ s ≠ ".".data ∧ s ≠ "..".data) := by
  constructor
  · refine resolveMarkdownHref_of_unresolved href currentDocPath docPathSet ?_
    unfold resolveDocsRelativePath
    rw [(walkSegments_eq_none_iff _ _).2 hUnder]
  · intro rawPath resolved h
    unfold resolveDocsRelativePath at h
    cases hw : walkSegments (resolveParts currentDocPath rawPath) [] with
    | none => rw [hw] at h; exact absurd h (by simp)
    | some segs =>
      rw [hw] at h
      cases segs with
      | nil => simp at h
      | cons s ss =>
        simp only [Option.some.injEq] at h
        refine ⟨s :: ss, h.symm, by simp, ?_⟩
        exact walkSegments_safe _ _ _ hw (by simp)

/-- Witness for C1 at the concrete href `../../x` referenced from `a/b.md`. -/
theorem c1_traversal_safety_witness :
    walkUnderflows (resolveParts "a/b.md".data (splitPathAndSuffix "../../x".data).1) [] = true ∧
    resolveMarkdownHref "../../x".data "a/b.md".data [] = "../../x".data :=
  ⟨by decide, (c1_traversal_safety "../../x".data "a/b.md".data [] (by decide)).1⟩

/-! ## Claim C10 -/

/-- Claim C10: for every href whose pathname normalizes to zero remaining
segments, resolution fails even though no `..` underflow occurs, and
`resolveMarkdownHref` returns the original href unchanged. -/
theorem c10_zero_segment_resolution (href currentDocPath : Str) (docPathSet : List Str)
    (hWalk : walkSegments (resolveParts currentDocPath (splitPathAndSuffix href).1) [] = some []) :
    walkUnderflows (resolveParts currentDocPath (splitPathAndSuffix href).1) [] = false ∧
    resolveDocsRelativePath currentDocPath (splitPathAndSuffix href).1 = none ∧
    resolveMarkdownHref href currentDocPath docPathSet = href := by
  have hres : resolveDocsRelativePath currentDocPath (splitPathAndSuffix href).1 = none := by
    unfold resolveDocsRelativePath
    rw [hWalk]
  refine ⟨?_, hres, resolveMarkdownHref_of_unresolved href currentDocPath docPathSet hres⟩
  by_contra hu
  rw [Bool.not_eq_false] at hu
  rw [(walkSegments_eq_none_iff _ _).2 hu] at hWalk
  exact absurd hWalk (by simp)

/-- Witness for C10 at the concrete href `.` referenced from a root-level
document. -/
theorem c10_zero_segment_resolution_witness :
    resolveMarkdownHref ".".data "a.md".data [] = ".".data :=
  (c10_zero_segment_resolution ".".data "a.md".data [] (by decide)).2.2

/-! ## Claim C8 -/

/-- Claim C8: `findDocBySlug` returns `none` on an empty document list; for a
non-empty slug it returns exactly a document whose slash-joined slug equals
the slash-joined argument (and `none` when there is none); for an empty or
absent slug it prefers the document at `getting-started/welcome.md`, then a
document whose path ends in `/README.md`, then the first document. -/
theorem c8_findDocBySlug_contract (docs : List DocRecord) (slug : Option (List Str)) :
    (docs = [] → findDocBySlug docs slug = none) ∧
    (∀ s₀ srest, slug = some (s₀ :: srest) → docs ≠ [] →
      ((∀ d, findDocBySlug docs slug = some d →
          d ∈ docs ∧ joinSegs '/' d.slug = joinSegs '/' (s₀ :: srest)) ∧
        ((∃ d ∈ docs, joinSegs '/' d.slug = joinSegs '/' (s₀ :: srest)) →
          findDocBySlug docs slug ≠ none) ∧
        ((∀ d ∈ docs, joinSegs '/' d.slug ≠ joinSegs '/' (s₀ :: srest)) →
          findDocBySlug docs slug = none))) ∧
    ((slug = none ∨ slug = some []) → docs ≠ [] →
      (((∃ d ∈ docs, d.relPath = "getting-started/welcome.md".data) →
          ∃ d, findDocBySlug docs slug = some d ∧ d ∈ docs ∧
            d.relPath = "getting-started/welcome.md".data) ∧
        ((∀ d ∈ docs, d.relPath ≠ "getting-started/welcome.md".data) →
          (∃ d ∈ docs, "/README.md".data.isSuffixOf d.relPath) →
          ∃ d, findDocBySlug docs slug = some d ∧ d ∈ docs ∧
            "/README.md".data.isSuffixOf d.relPath) ∧
        ((∀ d ∈ docs, d.relPath ≠ "getting-started/welcome.md".data) →
          (∀ d ∈ docs, ¬ "/README.md".data.isSuffixOf d.relPath) →
          findDocBySlug docs slug = docs.head?))) := by
  refine ⟨?_, ?_, ?_⟩
  · rintro rfl
    rfl
  · rintro s₀ srest rfl hne
    obtain ⟨d₀, dtail, rfl⟩ : ∃ d₀ dtail, docs = d₀ :: dtail := by
      cases docs with
      | nil => exact absurd rfl hne
      | cons d₀ dtail => exact ⟨d₀, dtail, rfl⟩
    refine ⟨?_, ?_, ?_⟩
    · intro d h
      simp only [findDocBySlug] at h
      exact ⟨List.mem_of_find?_eq_some h, by simpa using List.find?_some h⟩
    · intro ⟨d, hd, hkey⟩ hnone
      simp only [findDocBySlug] at hnone
      rw [List.find?_eq_none] at hnone
      exact hnone d hd (by simpa using hkey)
    · intro hall
      simp only [findDocBySlug]
      rw [List.find?_eq_none]
      intro d hd
      simpa using hall d hd
  · rintro hslug hne
    obtain ⟨d₀, dtail, rfl⟩ : ∃ d₀ dtail, docs = d₀ :: dtail := by
      cases docs with
      | nil => exact absurd rfl hne
      | cons d₀ dtail => exact ⟨d₀, dtail, rfl⟩
    have hshape : findDocBySlug (d₀ :: dtail) slug =
        (match (d₀ :: dtail).find? (fun d => d.relPath = "getting-started/welcome.md".data) with
          | some d => some d
          | none =>
            match (d₀ :: dtail).find? (fun d => "/README.md".data.isSuffixOf d.relPath) with
            | some d => some d
            | none => (d₀ :: dtail).head?) := by
      rcases hslug with rfl | rfl <;> rfl
    refine ⟨?_, ?_, ?_⟩
    · intro ⟨d, hd, hpath⟩
      have : ((d₀ :: dtail).find?
          (fun d => d.relPath = "getting-started/welcome.md".data)).isSome = true := by
        rw [List.find?_isSome]
        exact ⟨d, hd, by simpa using hpath⟩
      obtain ⟨d', hd'⟩ := Option.isSome_iff_exists.1 this
      rw [hshape, hd']
      exact ⟨d', rfl, List.mem_of_find?_eq_some hd', by simpa using List.find?_some hd'⟩
    · intro hnowelcome ⟨d, hd, hsuf⟩
      have hw : (d₀ :: dtail).find?
          (fun d => d.relPath = "getting-started/welcome.md".data) = none := by
        rw [List.find?_eq_none]
        intro x hx
        simpa using hnowelcome x hx
      have : ((d₀ :: dtail).find?
          (fun d => "/README.md".data.isSuffixOf d.relPath)).isSome = true := by
        rw [List.find?_isSome]
        exact ⟨d, hd, hsuf⟩
      obtain ⟨d', hd'⟩ := Option.isSome_iff_exists.1 this
      rw [hshape, hw, hd']
      exact ⟨d', rfl, List.mem_of_find?_eq_some hd', by simpa using List.find?_some hd'⟩
    · intro hnowelcome hnoreadme
      have hw : (d₀ :: dtail).find?
          (fun d => d.relPath = "getting-started/welcome.md".data) = none := by
        rw [List.find?_eq_none]
        intro x hx
        simpa using hnowelcome x hx
      have hr : (d₀ :: dtail).find?
          (fun d => "/README.md".data.isSuffixOf d.relPath) = none := by
        rw [List.find?_eq_none]
        intro x hx
        simpa using hnoreadme x hx
      rw [hshape, hw, hr]

/-- Witness for C8: the exact-slug branch applied to a concrete document
list. -/
theorem c8_findDocBySlug_contract_witness :
    findDocBySlug [sampleDocA, sampleDocB] (some ["sub".data, "b".data]) ≠ none :=
  ((c8_findDocBySlug_contract [sampleDocA, sampleDocB]
        (some ["sub".data, "b".data])).2.1 "sub".data ["b".data] rfl (by decide)).2.1
    ⟨sampleDocB, by decide, by decide⟩

/-! ## Snapshot-cache lemmas -/

theorem isSameDocsVersion_iff (a b : DocsVersion) : isSameDocsVersion a b = true ↔ a = b := by
  cases a
  cases b
  simp [isSameDocsVersion, Bool.and_eq_true, beq_iff_eq, DocsVersion.mk.injEq]

/-! ## Claim C6 -/

/-- Claim C6: in the live-editing (non-production) mode, an access while the
cache is warm serves the cached snapshot with no rebuild when the recomputed
fingerprint equals the recorded one, and performs exactly one full rebuild,
replacing the cached snapshot and the recorded fingerprint, when it
differs. -/
theorem c6_dev_cache_revalidation (env : DocsFsEnv) (snapshot : DocsSnapshot)
    (version : DocsVersion) (hRoot : env.rootExists = true) :
    (version = env.version →
      getSnapshotDev env ⟨some snapshot, some version⟩ =
        (snapshot, ⟨some snapshot, some version⟩, 0)) ∧
    (version ≠ env.version →
      getSnapshotDev env ⟨some snapshot, some version⟩ =
        (env.build, ⟨some env.build, some env.version⟩, 1)) := by
  constructor
  · rintro rfl
    simp [getSnapshotDev, hRoot, (isSameDocsVersion_iff env.version env.version).2 rfl]
  · intro hne
    have hfalse : isSameDocsVersion version env.version = false := by
      rw [Bool.eq_false_iff]
      intro h
      exact hne ((isSameDocsVersion_iff _ _).1 h)
    simp [getSnapshotDev, hRoot, hfalse]

/-- Witness for C6 at a concrete environment and warm cache. -/
theorem c6_dev_cache_revalidation_witness :
    getSnapshotDev sampleEnv ⟨some emptySnapshot, some ⟨5, 100⟩⟩ =
      (emptySnapshot, ⟨some emptySnapshot, some ⟨5, 100⟩⟩, 0) :=
  (c6_dev_cache_revalidation sampleEnv emptySnapshot ⟨5, 100⟩ rfl).1 rfl

/-! ## Claim C9 -/

/-- Claim C9: loading the persisted snapshot succeeds only when the file
exists, parses, carries a `__meta` with the expected schema version and a
finite fingerprint equal to the current one, and has array `docs` and `tree`
(with non-array `slugs` and `searchEntries` defaulted to empty); a missing or
unreadable file always misses; a cold production access whose disk load
misses falls back to exactly one full rebuild; and a failure to write the
snapshot never affects the in-memory result. -/
theorem c9_snapshot_miss_resilience (expectedVersion : DocsVersion) :
    (getValidatedSnapshotFromDisk .missing expectedVersion = none ∧
      getValidatedSnapshotFromDisk .readOrParseError expectedVersion = none) ∧
    (∀ p snap, getValidatedSnapshotFromDisk (.parsed p) expectedVersion = some snap →
      ∃ meta fc mt docs tree, p.meta = some meta ∧
        meta.schemaVersion = some snapshotSchemaVersion ∧
        meta.version = some (some fc, some mt) ∧
        (⟨fc, mt⟩ : DocsVersion) = expectedVersion ∧
        p.docs = some docs ∧ p.tree = some tree ∧
        snap = ⟨docs, p.slugs.getD [], tree, p.searchEntries.getD []⟩) ∧
    (∀ (env : DocsFsEnv) (st : DocsCacheState), env.rootExists = true →
      st.cachedSnapshot = none →
      getValidatedSnapshotFromDisk env.disk env.version = none →
      getSnapshotProd env st = (env.build, ⟨some env.build, some env.version⟩, 1)) ∧
    (∀ (env : DocsFsEnv) (st : DocsCacheState),
      getSnapshotProd { env with writeFails := true } st =
        getSnapshotProd { env with writeFails := false } st) := by
  refine ⟨⟨rfl, rfl⟩, ?_, ?_, ?_⟩
  · intro p snap h
    simp only [getValidatedSnapshotFromDisk] at h
    split at h
    · exact absurd h (by simp)
    · rename_i version hm
      split at h
      · exact absurd h (by simp)
      · rename_i hsame
        rw [not_not] at hsame
        have hveq : version = expectedVersion := (isSameDocsVersion_iff _ _).1 hsame
        split at h
        · rename_i docs tree hdocs htree
          simp only [Option.some.injEq] at h
          simp only [getPersistedSnapshotMeta] at hm
          split at hm
          · exact absurd hm (by simp)
          · rename_i meta hmeta
            split at hm
            · exact absurd hm (by simp)
            · rename_i hschema
              rw [not_not] at hschema
              split at hm
              · exact absurd hm (by simp)
              · rename_i fc? mt? hver
                split at hm
                · rename_i fc mt
                  simp only [Option.some.injEq] at hm
                  exact ⟨meta, fc, mt, docs, tree, hmeta, hschema, hver, by rw [hm, hveq],
                    hdocs, htree, h.symm⟩
                · exact absurd hm (by simp)
        · exact absurd h (by simp)
  · intro env st hroot hcold hdisk
    unfold getSnapshotProd
    rw [hroot]
    simp only [Bool.true_eq_false, if_false]
    rw [hcold, hdisk]
  · intro env st
    obtain ⟨re, v, b, disk, wf⟩ := env
    rfl

/-- Witness for C9: a cold production access with a missing snapshot file
falls back to a full rebuild. -/
theorem c9_snapshot_miss_resilience_witness :
    getSnapshotProd sampleEnv ⟨none, none⟩ =
      (sampleEnv.build, ⟨some sampleEnv.build, some sampleEnv.version⟩, 1) :=
  (c9_snapshot_miss_resilience sampleEnv.version).2.2.1 sampleEnv ⟨none, none⟩ rfl rfl rfl

/-! ## Date-rendering lemmas -/

theorem digitChar_isDigit (n : Nat) : (digitChar n).isDigit = true := by
  unfold digitChar
  split <;> decide

theorem digitChar_toNat (n : Nat) (h : n < 10) : (digitChar n).toNat = 48 + n := by
  interval_cases n <;> rfl

theorem daysInYear_cases (y : Int) : daysInYear y = 365 ∨ daysInYear y = 366 := by
  unfold daysInYear
  split
  · right; rfl
  · left; rfl

theorem yearLoop_bounds : ∀ (fuel : Nat) (y d : Int), 0 ≤ d → d < 365 * fuel →
    0 ≤ (yearLoop fuel y d).2 ∧ (yearLoop fuel y d).2 < daysInYear (yearLoop fuel y d).1 := by
  intro fuel
  induction fuel with
  | zero => intro y d h0 h1; exact absurd h1 (by omega)
  | succ n ih =>
    intro y d h0 h1
    unfold yearLoop
    by_cases hle : daysInYear y ≤ d
    · rw [if_pos hle]
      rcases daysInYear_cases y with hdy | hdy <;>
        exact ih (y + 1) (d - daysInYear y) (by omega) (by omega)
    · rw [if_neg hle]
      refine ⟨h0, ?_⟩
      show d < daysInYear y
      omega

theorem monthLoop_bounds : ∀ (lens : List Int) (m d : Int), 0 ≤ d → d < lens.sum →
    (∀ l ∈ lens, 1 ≤ l ∧ l ≤ 31) →
    m ≤ (monthLoop lens m d).1 ∧ (monthLoop lens m d).1 + 1 ≤ m + lens.length ∧
      0 ≤ (monthLoop lens m d).2 ∧ (monthLoop lens m d).2 ≤ 30 := by
  intro lens
  induction lens with
  | nil => intro m d h0 h1; simp at h1; omega
  | cons len rest ih =>
    intro m d h0 h1 hall
    unfold monthLoop
    by_cases hle : len ≤ d
    · rw [if_pos hle]
      have hrest := ih (m + 1) (d - len) (by omega)
        (by simp only [List.sum_cons] at h1; omega)
        (fun l hl => hall l (List.mem_cons_of_mem _ hl))
      simp only [List.length_cons]
      omega
    · rw [if_neg hle]
      have hlen := hall len (List.mem_cons_self _ _)
      simp only [List.length_cons]
      omega

theorem civilFromDays_bounds (z : Int) (h0 : 0 ≤ z) (h1 : z ≤ 2932896) :
    1 ≤ (civilFromDays z).2.1 ∧ (civilFromDays z).2.1 ≤ 12 ∧
      1 ≤ (civilFromDays z).2.2 ∧ (civilFromDays z).2.2 ≤ 31 := by
  unfold civilFromDays
  dsimp only
  have hy := yearLoop_bounds 9000 1970 z h0 (by omega)
  have hsum : (monthLengthsOf (isLeapYear (yearLoop 9000 1970 z).1)).sum =
      daysInYear (yearLoop 9000 1970 z).1 := by
    unfold monthLengthsOf daysInYear
    cases isLeapYear (yearLoop 9000 1970 z).1 <;> norm_num
  have hall : ∀ l ∈ monthLengthsOf (isLeapYear (yearLoop 9000 1970 z).1), 1 ≤ l ∧ l ≤ 31 := by
    unfold monthLengthsOf
    cases isLeapYear (yearLoop 9000 1970 z).1 <;>
      · intro l hl
        simp only [List.mem_cons, List.not_mem_nil, or_false] at hl
        rcases hl with rfl | rfl | rfl | rfl | rfl | rfl | rfl | rfl | rfl | rfl | rfl | rfl <;>
          norm_num
  have hlen : (monthLengthsOf (isLeapYear (yearLoop 9000 1970 z).1)).length = 12 := by
    unfold monthLengthsOf
    cases isLeapYear (yearLoop 9000 1970 z).1 <;> rfl
  have hm := monthLoop_bounds (monthLengthsOf (isLeapYear (yearLoop 9000 1970 z).1)) 1
    (yearLoop 9000 1970 z).2 hy.1 (by omega) hall
  omega

/-! ## Claim C4 -/

/-- Counterexample to claim C4 as stated: a present front-matter date that is
a (non-ISO) string is passed through unchanged by `normalizeDate`, not
normalized to an ISO date string. -/
theorem c4_date_normalization_counterexample :
    normalizeDate (.strVal "2024/05/06".data) = "2024/05/06".data ∧
      isIsoDateString (normalizeDate (.strVal "2024/05/06".data)) = false :=
  ⟨rfl, by decide⟩

/-- Claim C4 as amended: a front-matter `Date` value (for any instant from
1970 through year 9999) is normalized to an ISO `YYYY-MM-DD` date string, a
string value is passed through unchanged, and an absent or non-date,
non-string value yields the empty string. -/
theorem c4_date_normalization (ms : Int) (h0 : 0 ≤ ms) (h1 : ms < 253402300800000) :
    isIsoDateString (normalizeDate (.dateVal ms)) = true ∧
      (∀ s, normalizeDate (.strVal s) = s) ∧
      normalizeDate .absent = [] ∧ normalizeDate .otherVal = [] := by
  refine ⟨?_, fun s => rfl, rfl, rfl⟩
  have hz0 : 0 ≤ ms / 86400000 := Int.ediv_nonneg h0 (by norm_num)
  have hz1 : ms / 86400000 ≤ 2932896 := by omega
  obtain ⟨hm0, hm1, hd0, hd1⟩ := civilFromDays_bounds _ hz0 hz1
  show isIsoDateString (isoDateChars ms) = true
  unfold isoDateChars
  dsimp only
  unfold pad4 pad2
  set yy := (civilFromDays (ms / 86400000)).1.toNat with hyy
  set mm := (civilFromDays (ms / 86400000)).2.1.toNat with hmm
  set dd := (civilFromDays (ms / 86400000)).2.2.toNat with hdd
  have hmm1 : 1 ≤ mm := by omega
  have hmm12 : mm ≤ 12 := by omega
  have hdd1 : 1 ≤ dd := by omega
  have hdd31 : dd ≤ 31 := by omega
  show isIsoDateString
      [digitChar (yy / 1000 % 10), digitChar (yy / 100 % 10), digitChar (yy / 10 % 10),
        digitChar (yy % 10), '-', digitChar (mm / 10 % 10), digitChar (mm % 10), '-',
        digitChar (dd / 10 % 10), digitChar (dd % 10)] = true
  unfold isIsoDateString
  dsimp only
  rw [digitChar_toNat (mm / 10 % 10) (by omega), digitChar_toNat (mm % 10) (by omega),
    digitChar_toNat (dd / 10 % 10) (by omega), digitChar_toNat (dd % 10) (by omega)]
  simp only [digitChar_isDigit, Bool.and_eq_true, beq_self_eq_true, decide_eq_true_eq]
  refine ⟨by simp, ?_⟩
  omega

/-- Witness for C4 at a concrete epoch-milliseconds value. -/
theorem c4_date_normalization_witness :
    isIsoDateString (normalizeDate (.dateVal 1700000000000)) = true :=
  (c4_date_normalization 1700000000000 (by norm_num) (by norm_num)).1

/-! ## Claim C5 -/

theorem descFirstLine_eq_find (lines : List Str) :
    descFirstLine lines =
      (lines.find? (fun l => ¬ ("#".data.isPrefixOf l ∨ "![".data.isPrefixOf l ∨
          "---".data.isPrefixOf l ∨ "```".data.isPrefixOf l))).elim []
        (fun l => trimChars (l.filter (fun c => ¬ descStripChars.contains c))) := by
  induction lines with
  | nil => rfl
  | cons l rest ih =>
    unfold descFirstLine
    by_cases h : "#".data.isPrefixOf l ∨ "![".data.isPrefixOf l ∨
        "---".data.isPrefixOf l ∨ "```".data.isPrefixOf l
    · rw [if_pos h, List.find?_cons_of_neg _
        (by simp only [decide_eq_true_eq, not_not]; exact h)]
      exact ih
    · rw [if_neg h, List.find?_cons_of_pos _
        (by simp only [decide_eq_true_eq]; exact h)]
      rfl

/-- Counterexample to claim C5 as stated: the source strips the characters
`*` `_` backtick `>` `#` `-` from the chosen line, not only Markdown emphasis
markers, so a hyphenated body line diverges from the claim's description. -/
theorem c5_description_counterexample :
    getDescriptionFromContent "a-b".data = "ab".data ∧
      claimEmphasisStripped "a-b".data = "a-b".data ∧
      getDescriptionFromContent "a-b".data ≠ claimEmphasisStripped "a-b".data := by
  refine ⟨by decide, by decide, by decide⟩

/-- Claim C5 as amended: a front-matter description that is a string trimming
to non-empty is used (trimmed); otherwise the description is the first
trimmed, non-empty line of the body that is not a heading, image, horizontal
rule or code fence, with the marker characters `*` `_` backtick `>` `#` `-`
removed everywhere and the result trimmed. -/
theorem c5_description_resolution (metaDescription : Option Str) (content : Str) :
    (∀ s, metaDescription = some s → trimChars s ≠ [] →
      resolveDescription metaDescription content = trimChars s) ∧
    ((metaDescription.map trimChars).getD [] = [] →
      resolveDescription metaDescription content = getDescriptionFromContent content) ∧
    getDescriptionFromContent content =
      ((((splitOnChar '\n' content).map trimChars).filter (fun l => ¬ l.isEmpty)).find?
          (fun l => ¬ ("#".data.isPrefixOf l ∨ "![".data.isPrefixOf l ∨
            "---".data.isPrefixOf l ∨ "```".data.isPrefixOf l))).elim []
        (fun l => trimChars (l.filter (fun c => ¬ descStripChars.contains c))) := by
  refine ⟨?_, ?_, by unfold getDescriptionFromContent; exact descFirstLine_eq_find _⟩
  · rintro s rfl hne
    unfold resolveDescription
    simp [hne]
  · intro hempty
    unfold resolveDescription
    cases metaDescription with
    | none => simp
    | some s =>
      simp only [Option.map_some', Option.getD_some] at hempty
      simp [hempty]

/-- Witness for C5: a whitespace-padded front-matter description is used
trimmed. -/
theorem c5_description_resolution_witness :
    resolveDescription (some " Hi ".data) "body".data = trimChars " Hi ".data :=
  (c5_description_resolution (some " Hi ".data) "body".data).1 " Hi ".data rfl (by decide)

/-! ## Scanner lemmas for the Obsidian-embed preprocessor -/

theorem takeWhile_append_all {α : Type} (p : α → Bool) (l : List α) (x : α) (r : List α)
    (hl : ∀ c ∈ l, p c = true) (hx : p x = false) : (l ++ x :: r).takeWhile p = l := by
  induction l with
  | nil => simp [List.takeWhile_cons, hx]
  | cons a t ih =>
    simp only [List.cons_append, List.takeWhile_cons, hl a (List.mem_cons_self _ _),
      if_true, List.cons.injEq, true_and]
    exact ih (fun c hc => hl c (List.mem_cons_of_mem _ hc))

theorem dropWhile_append_all {α : Type} (p : α → Bool) (l : List α) (x : α) (r : List α)
    (hl : ∀ c ∈ l, p c = true) (hx : p x = false) : (l ++ x :: r).dropWhile p = x :: r := by
  induction l with
  | nil => simp [List.dropWhile_cons, hx]
  | cons a t ih =>
    simp only [List.cons_append, List.dropWhile_cons, hl a (List.mem_cons_self _ _), if_true]
    exact ih (fun c hc => hl c (List.mem_cons_of_mem _ hc))

theorem tryEmbedAt_length {cs t a rest : Str} (h : tryEmbedAt cs = some (t, a, rest)) :
    rest.length + 3 ≤ cs.length := by
  unfold tryEmbedAt at h
  have hsplit := List.takeWhile_append_dropWhile
    (p := fun c => ¬(c = ']' ∨ c = '|')) (l := cs)
  split at h
  · exact absurd h (by simp)
  · rename_i hne
    have ht1 : 1 ≤ (cs.takeWhile (fun c => ¬(c = ']' ∨ c = '|'))).length := by
      cases hh : cs.takeWhile (fun c => ¬(c = ']' ∨ c = '|')) with
      | nil => rw [hh] at hne; simp at hne
      | cons x xs => simp [hh]
    split at h
    · rename_i rest' hdrop
      simp only [Option.some.injEq, Prod.mk.injEq] at h
      obtain ⟨rfl, rfl, rfl⟩ := h
      have hlen := congrArg List.length hsplit
      rw [hdrop] at hlen
      simp only [List.length_append, List.length_cons] at hlen
      omega
    · rename_i r₂ hdrop
      split at h
      · exact absurd h (by simp)
      · rename_i hane
        split at h
        · rename_i rest' hdrop₂
          simp only [Option.some.injEq, Prod.mk.injEq] at h
          obtain ⟨rfl, rfl, rfl⟩ := h
          have hsplit₂ := List.takeWhile_append_dropWhile
            (p := fun c => ¬ c = ']') (l := r₂)
          have hlen := congrArg List.length hsplit
          rw [hdrop] at hlen
          have hlen₂ := congrArg List.length hsplit₂
          rw [hdrop₂] at hlen₂
          simp only [List.length_append, List.length_cons] at hlen hlen₂
          omega
        · exact absurd h (by simp)
    · exact absurd h (by simp)

theorem embedScan_eq_of_le (b : Bool) :
    ∀ (f₁ : Nat) (cs : Str) (f₂ : Nat), cs.length ≤ f₁ → cs.length ≤ f₂ →
      embedScan b f₁ cs = embedScan b f₂ cs := by
  intro f₁
  induction f₁ with
  | zero =>
    intro cs f₂ h1 h2
    have : cs = [] := List.length_eq_zero.mp (Nat.le_zero.mp h1)
    subst this
    cases f₂ <;> rfl
  | succ n ih =>
    intro cs f₂ h1 h2
    cases cs with
    | nil => cases f₂ <;> rfl
    | cons c cs' =>
      cases f₂ with
      | zero => exact absurd h2 (by simp)
      | succ m =>
        unfold embedScan
        by_cases hcond : c = '!' ∧ cs'.take 2 = "[[".data
        · rw [if_pos hcond, if_pos hcond]
          cases htry : tryEmbedAt (cs'.drop 2) with
          | none =>
            simp only [List.length_cons, Nat.succ_le_succ_iff] at h1 h2
            dsimp only
            rw [ih cs' m h1 h2]
          | some tr =>
            obtain ⟨t, a, rest⟩ := tr
            have hlen := tryEmbedAt_length htry
            rw [List.length_drop] at hlen
            simp only [List.length_cons, Nat.succ_le_succ_iff] at h1 h2
            dsimp only
            rw [ih rest m (by omega) (by omega)]
        · rw [if_neg hcond, if_neg hcond]
          simp only [List.length_cons, Nat.succ_le_succ_iff] at h1 h2
          rw [ih cs' m h1 h2]

theorem embedScan_no_embed (b : Bool) :
    ∀ (fuel : Nat) (cs : Str), hasEmbedStart cs = false → embedScan b fuel cs = cs := by
  intro fuel
  induction fuel with
  | zero => intro cs _; rfl
  | succ n ih =>
    intro cs h
    cases cs with
    | nil => rfl
    | cons c cs' =>
      unfold hasEmbedStart at h
      rw [Bool.or_eq_false_iff] at h
      unfold embedScan
      have hcond : ¬(c = '!' ∧ cs'.take 2 = "[[".data) := by
        rintro ⟨rfl, htake⟩
        cases cs' with
        | nil => simp at htake
        | cons a t =>
          cases t with
          | nil => simp at htake
          | cons a₂ t₂ =>
            simp only [List.take_succ_cons, List.take_zero, List.cons.injEq, and_true] at htake
            obtain ⟨rfl, rfl, _⟩ := htake
            have : "![[".data.isPrefixOf ('!' :: '[' :: '[' :: t₂) = true := by
              simp [List.isPrefixOf]
            rw [this] at h
            exact absurd h.1 (by simp)
      rw [if_neg hcond, ih cs' h.2]

/-! ## Claim C3 -/

/-- Counterexample to claim C3 as stated: the source strips every leading
slash from the embed target (the regex replaces a run of one or more),
whereas the claim strips a single leading slash; on the target `//a` the
source produces `![](/a)`, not the `![](//a)` the claim predicts. -/
theorem c3_obsidian_embed_counterexample :
    preprocessObsidianMarkdown "![[//a]]".data true = "![](/a)".data ∧
      preprocessObsidianMarkdown "![[//a]]".data true ≠ "![](//a)".data := by
  refine ⟨by decide, by decide⟩

/-- Claim C3 as amended: text without an embed opener passes through
unchanged; each occurrence of an embed `![[target|alt]]` or `![[target]]` is
rewritten by trimming the target, converting backslashes to forward slashes,
stripping every leading slash and then a single leading `./`, and emitting
`![alt](target)` with the target prefixed by `/` when the root-relative flag
is set, after which scanning continues on the rest of the text. -/
theorem c3_obsidian_embed_rewrite (b : Bool) (target alt post : Str)
    (ht : target ≠ []) (htc : ∀ c ∈ target, ¬(c = ']' ∨ c = '|'))
    (ha : alt ≠ []) (hac : ∀ c ∈ alt, ¬ c = ']') :
    (∀ s, hasEmbedStart s = false → preprocessObsidianMarkdown s b = s) ∧
    preprocessObsidianMarkdown
        ("![[".data ++ (target ++ ('|' :: (alt ++ (']' :: (']' :: post)))))) b =
      embedReplacement b target alt ++ preprocessObsidianMarkdown post b ∧
    preprocessObsidianMarkdown ("![[".data ++ (target ++ (']' :: (']' :: post)))) b =
      embedReplacement b target [] ++ preprocessObsidianMarkdown post b := by
  refine ⟨fun s hs => embedScan_no_embed b s.length s hs, ?_, ?_⟩
  · have htry : tryEmbedAt (target ++ ('|' :: (alt ++ (']' :: (']' :: post))))) =
        some (target, alt, post) := by
      unfold tryEmbedAt
      rw [takeWhile_append_all (fun c => decide ¬(c = ']' ∨ c = '|')) target '|'
          (alt ++ (']' :: (']' :: post))) (fun c hc => by simpa using htc c hc) (by decide),
        dropWhile_append_all (fun c => decide ¬(c = ']' ∨ c = '|')) target '|'
          (alt ++ (']' :: (']' :: post))) (fun c hc => by simpa using htc c hc) (by decide)]
      obtain ⟨t₀, ttail, rfl⟩ : ∃ t₀ ttail, target = t₀ :: ttail := by
        cases target with
        | nil => exact absurd rfl ht
        | cons t₀ ttail => exact ⟨t₀, ttail, rfl⟩
      rw [if_neg (by simp)]
      split
      · rename_i rest heq
        simp at heq
      · rename_i r₂ heq
        obtain rfl : r₂ = alt ++ (']' :: (']' :: post)) := by
          injection heq with h₁ h₂
          exact h₂.symm
        rw [takeWhile_append_all (fun c => decide ¬ c = ']') alt ']' (']' :: post)
            (fun c hc => by simpa using hac c hc) (by decide),
          dropWhile_append_all (fun c => decide ¬ c = ']') alt ']' (']' :: post)
            (fun c hc => by simpa using hac c hc) (by decide)]
        obtain ⟨a₀, atail, rfl⟩ : ∃ a₀ atail, alt = a₀ :: atail := by
          cases alt with
          | nil => exact absurd rfl ha
          | cons a₀ atail => exact ⟨a₀, atail, rfl⟩
        rw [if_neg (by simp)]
        split
        · rename_i rest heq₂
          injection heq₂ with e₁ e₂
          injection e₂ with e₃ e₄
          rw [e₄]
        · rename_i hno
          exact (hno post rfl).elim
      · rename_i hno₁ hno₂
        exact (hno₂ (alt ++ (']' :: (']' :: post))) rfl).elim
    show embedScan b
        ('!' :: '[' :: '[' :: (target ++ ('|' :: (alt ++ (']' :: (']' :: post)))))).length
        ('!' :: '[' :: '[' :: (target ++ ('|' :: (alt ++ (']' :: (']' :: post)))))) =
      embedReplacement b target alt ++ preprocessObsidianMarkdown post b
    rw [show ('!' :: '[' :: '[' ::
        (target ++ ('|' :: (alt ++ (']' :: (']' :: post)))))).length =
        (target ++ ('|' :: (alt ++ (']' :: (']' :: post))))).length + 3 by simp]
    unfold embedScan
    rw [if_pos ⟨rfl, rfl⟩]
    simp only [List.drop_succ_cons, List.drop_zero]
    rw [htry]
    dsimp only
    have hfuel : embedScan b
        ((target ++ ('|' :: (alt ++ (']' :: (']' :: post))))).length + 2) post =
        embedScan b post.length post :=
      embedScan_eq_of_le b _ post _ (by simp [List.length_append, List.length_cons]; omega)
        (le_refl _)
    rw [hfuel]
    rfl
  · have htry : tryEmbedAt (target ++ (']' :: (']' :: post))) = some (target, [], post) := by
      unfold tryEmbedAt
      rw [takeWhile_append_all (fun c => decide ¬(c = ']' ∨ c = '|')) target ']'
          (']' :: post) (fun c hc => by simpa using htc c hc) (by decide),
        dropWhile_append_all (fun c => decide ¬(c = ']' ∨ c = '|')) target ']'
          (']' :: post) (fun c hc => by simpa using htc c hc) (by decide)]
      obtain ⟨t₀, ttail, rfl⟩ : ∃ t₀ ttail, target = t₀ :: ttail := by
        cases target with
        | nil => exact absurd rfl ht
        | cons t₀ ttail => exact ⟨t₀, ttail, rfl⟩
      rw [if_neg (by simp)]
      rfl
    show embedScan b ('!' :: '[' :: '[' :: (target ++ (']' :: (']' :: post)))).length
        ('!' :: '[' :: '[' :: (target ++ (']' :: (']' :: post)))) =
      embedReplacement b target [] ++ preprocessObsidianMarkdown post b
    rw [show ('!' :: '[' :: '[' :: (target ++ (']' :: (']' :: post)))).length =
        (target ++ (']' :: (']' :: post))).length + 3 by simp]
    unfold embedScan
    rw [if_pos ⟨rfl, rfl⟩]
    simp only [List.drop_succ_cons, List.drop_zero]
    rw [htry]
    dsimp only
    have hfuel : embedScan b ((target ++ (']' :: (']' :: post))).length + 2) post =
        embedScan b post.length post :=
      embedScan_eq_of_le b _ post _ (by simp [List.length_append, List.length_cons]; omega)
        (le_refl _)
    rw [hfuel]
    rfl

/-- Witness for C3 at the embed of the spec's scenario. -/
theorem c3_obsidian_embed_rewrite_witness :
    preprocessObsidianMarkdown "![[diagram.png|A diagram]]".data true =
      "![A diagram](/diagram.png)".data := by
  have h := (c3_obsidian_embed_rewrite true "diagram.png".data "A diagram".data []
    (by decide) (by decide) (by decide) (by decide)).2.1
  rw [show "![[".data ++ ("diagram.png".data ++ ('|' :: ("A diagram".data ++
      (']' :: (']' :: ([] : Str)))))) = "![[diagram.png|A diagram]]".data from rfl] at h
  rw [h]
  decide

/-! ## Heading-hook lemmas -/

theorem runHeadingHook_recorded :
    ∀ (rest : List (Str × Nat)) (counts : Str → Nat),
      (runHeadingHook counts rest).2 = (runHeadingHook counts rest).1.filterMap
        (fun x => if 2 ≤ x.2.2 ∧ x.2.2 ≤ 3 then
          some (⟨x.2.1, x.2.2, x.1⟩ : DocHeading) else none) := by
  intro rest
  induction rest with
  | nil => intro counts; rfl
  | cons e tail ih =>
    obtain ⟨t, d⟩ := e
    intro counts
    unfold runHeadingHook
    dsimp only
    rw [List.filterMap_cons, ih]
    by_cases hd : 2 ≤ d ∧ d ≤ 3
    · simp [hd]
    · simp [hd]

theorem runHeadingHook_ids :
    ∀ (rest processed : List (Str × Nat)) (counts : Str → Nat),
      (∀ b, counts b = processed.countP (fun e => headingBase e.1 == b)) →
      (runHeadingHook counts rest).1 = headingSpecList processed rest := by
  intro rest
  induction rest with
  | nil => intro processed counts _; rfl
  | cons e tail ih =>
    obtain ⟨t, d⟩ := e
    intro processed counts h
    unfold runHeadingHook headingSpecList
    dsimp only
    have hid : (if counts (headingBase t) = 0 then headingBase t
        else headingBase t ++ '-' :: natChars (counts (headingBase t))) =
        headingIdSpec processed t := by
      unfold headingIdSpec
      rw [h (headingBase t)]
    rw [hid]
    have hinv : ∀ b, (if b = headingBase t then counts (headingBase t) + 1 else counts b) =
        (processed ++ [(t, d)]).countP (fun e => headingBase e.1 == b) := by
      intro b
      rw [List.countP_append]
      by_cases hb : b = headingBase t
      · subst hb
        simp [h (headingBase t), List.countP_cons]
      · simp only [if_neg hb, h b, List.countP_cons, List.countP_nil]
        have : (headingBase t == b) = false := by
          simp only [beq_eq_false_iff_ne, ne_eq]
          exact fun hc => hb hc.symm
        simp [this]
    rw [ih (processed ++ [(t, d)]) _ hinv]

theorem headingSpecList_getElem :
    ∀ (rest processed : List (Str × Nat)) (i : Nat) (hi : i < rest.length),
      (headingSpecList processed rest)[i]? =
        some ((rest.get ⟨i, hi⟩).1,
          headingIdSpec (processed ++ rest.take i) (rest.get ⟨i, hi⟩).1,
          (rest.get ⟨i, hi⟩).2) := by
  intro rest
  induction rest with
  | nil => intro processed i hi; simp at hi
  | cons e tail ih =>
    obtain ⟨t, d⟩ := e
    intro processed i hi
    cases i with
    | zero => simp [headingSpecList]
    | succ j =>
      unfold headingSpecList
      rw [List.getElem?_cons_succ, ih (processed ++ [(t, d)]) j (by simpa using hi)]
      simp [List.take_succ_cons, List.append_assoc]

/-! ## Claim C2 -/

/-- Counterexample to claim C2 as stated: a heading whose text slugifies to
the empty slug is assigned the id `section`, not the base slug itself. -/
theorem c2_heading_ids_counterexample :
    (renderHeadings [("!!!".data, 2)]).1 = [("!!!".data, "section".data, 2)] ∧
      slugify "!!!".data = [] ∧ ("section".data : Str) ≠ slugify "!!!".data := by
  refine ⟨by decide, by decide, by decide⟩

/-- Claim C2 as amended: within one render, the i-th heading is assigned the
id equal to its base slug (the slugified text, with an empty slug replaced by
`section`) when no earlier heading shares that base, and `base-count`
otherwise, where `count` is the number of earlier headings with the same base;
and the recorded heading list consists of exactly the level-2 and level-3
headings, with their assigned ids, in document order. -/
theorem c2_heading_ids (headingTokens : List (Str × Nat)) :
    (∀ i (hi : i < headingTokens.length),
      ((renderHeadings headingTokens).1)[i]? =
        some ((headingTokens.get ⟨i, hi⟩).1,
          headingIdSpec (headingTokens.take i) (headingTokens.get ⟨i, hi⟩).1,
          (headingTokens.get ⟨i, hi⟩).2)) ∧
    (renderHeadings headingTokens).2 =
      (renderHeadings headingTokens).1.filterMap
        (fun x => if 2 ≤ x.2.2 ∧ x.2.2 ≤ 3 then
          some (⟨x.2.1, x.2.2, x.1⟩ : DocHeading) else none) := by
  constructor
  · intro i hi
    have h1 : (renderHeadings headingTokens).1 = headingSpecList [] headingTokens :=
      runHeadingHook_ids headingTokens [] (fun _ => 0) (by simp)
    rw [h1, headingSpecList_getElem headingTokens [] i hi]
    simp
  · exact runHeadingHook_recorded headingTokens (fun _ => 0)

/-- Witness for C2: the second heading of a concrete document repeats the
first one's base slug and receives the suffixed id. -/
theorem c2_heading_ids_witness :
    ((renderHeadings [("A".data, 2), ("a".data, 3)]).1)[1]? =
      some ("a".data, "a-1".data, 3) := by
  have h := (c2_heading_ids [("A".data, 2), ("a".data, 3)]).1 1 (by decide)
  rw [h]
  decide

/-! ## Node comparator lemmas -/

theorem sortNodeList_eq_map (cmp : Str → Str → Int) (l : List DocTreeNode) :
    sortNodeList cmp l = l.map (sortTreeNode cmp) := by
  induction l with
  | nil => rfl
  | cons n t ih => simp [sortNodeList, ih]

theorem sortTreeNode_file {cmp : Str → Str → Int} {m : DocTreeNode}
    (h : isFileNode m = true) : sortTreeNode cmp m = m := by
  cases m with
  | folder n k c => simp [isFileNode] at h
  | file n k r s t => rfl

theorem sortTreeNode_folder (cmp : Str → Str → Int) (n k : Str) (c : List DocTreeNode) :
    sortTreeNode cmp (.folder n k c) = .folder n k (sortTree cmp c) := rfl

theorem nodeLe_total {cmp : Str → Str → Int} (hc : IsLinearCmp cmp) (a b : DocTreeNode) :
    (nodeLe cmp a b || nodeLe cmp b a) = true := by
  cases a with
  | folder n₁ k₁ c₁ =>
    cases b with
    | folder n₂ k₂ c₂ =>
      simp only [nodeLe, nodeCmp, nodeName, Bool.or_eq_true, decide_eq_true_eq]
      exact hc.total n₁ n₂
    | file n₂ k₂ r₂ s₂ t₂ => rfl
  | file n₁ k₁ r₁ s₁ t₁ =>
    cases b with
    | folder n₂ k₂ c₂ => rfl
    | file n₂ k₂ r₂ s₂ t₂ =>
      simp only [nodeLe, nodeCmp, nodeName, Bool.or_eq_true, decide_eq_true_eq]
      exact hc.total n₁ n₂

theorem nodeLe_trans {cmp : Str → Str → Int} (hc : IsLinearCmp cmp) (a b c : DocTreeNode)
    (hab : nodeLe cmp a b = true) (hbc : nodeLe cmp b c = true) : nodeLe cmp a c = true := by
  cases a with
  | folder n₁ k₁ c₁ =>
    cases c with
    | file n₃ k₃ r₃ s₃ t₃ => rfl
    | folder n₃ k₃ c₃ =>
      cases b with
      | file n₂ k₂ r₂ s₂ t₂ => exact absurd hbc (by norm_num [nodeLe, nodeCmp])
      | folder n₂ k₂ c₂ =>
        simp only [nodeLe, nodeCmp, nodeName, decide_eq_true_eq] at hab hbc ⊢
        exact hc.le_trans _ _ _ hab hbc
  | file n₁ k₁ r₁ s₁ t₁ =>
    cases b with
    | folder n₂ k₂ c₂ => exact absurd hab (by norm_num [nodeLe, nodeCmp])
    | file n₂ k₂ r₂ s₂ t₂ =>
      cases c with
      | folder n₃ k₃ c₃ => exact absurd hbc (by norm_num [nodeLe, nodeCmp])
      | file n₃ k₃ r₃ s₃ t₃ =>
        simp only [nodeLe, nodeCmp, nodeName, decide_eq_true_eq] at hab hbc ⊢
        exact hc.le_trans _ _ _ hab hbc

theorem sorted_perm_eq_of_antisymmOn {α : Type} {le : α → α → Bool} :
    ∀ {l₁ l₂ : List α}, l₁.Perm l₂ →
      List.Pairwise (fun a b => le a b = true) l₁ →
      List.Pairwise (fun a b => le a b = true) l₂ →
      (∀ a ∈ l₁, ∀ b ∈ l₁, le a b = true → le b a = true → a = b) →
      l₁ = l₂ := by
  intro l₁
  induction l₁ with
  | nil =>
    intro l₂ hp _ _ _
    exact (List.Perm.nil_eq hp).symm ▸ rfl
  | cons a t₁ ih =>
    intro l₂ hp hs₁ hs₂ hanti
    cases l₂ with
    | nil => exact absurd hp.symm.nil_eq (by simp)
    | cons b t₂ =>
      have hab : a = b := by
        by_cases hab : a = b
        · exact hab
        · have ha₂ : a ∈ b :: t₂ := hp.mem_iff.1 (List.mem_cons_self _ _)
          have hb₁ : b ∈ a :: t₁ := hp.symm.mem_iff.1 (List.mem_cons_self _ _)
          have hat₂ : a ∈ t₂ := by
            rcases List.mem_cons.1 ha₂ with rfl | h
            · exact absurd rfl hab
            · exact h
          have hbt₁ : b ∈ t₁ := by
            rcases List.mem_cons.1 hb₁ with rfl | h
            · exact absurd rfl (fun hh => hab hh.symm)
            · exact h
          have h₁ : le a b = true := (List.pairwise_cons.1 hs₁).1 b hbt₁
          have h₂ : le b a = true := (List.pairwise_cons.1 hs₂).1 a hat₂
          exact hanti a (List.mem_cons_self _ _) b (List.mem_cons_of_mem _ hbt₁) h₁ h₂
      subst hab
      have htp : t₁.Perm t₂ := hp.cons_inv
      have := ih htp (List.pairwise_cons.1 hs₁).2 (List.pairwise_cons.1 hs₂).2
        (fun x hx y hy => hanti x (List.mem_cons_of_mem _ hx) y (List.mem_cons_of_mem _ hy))
      rw [this]

/-! ## Observation lemmas for the tree-insertion step -/

theorem levelFolderNames_append (l₁ l₂ : List DocTreeNode) :
    levelFolderNames (l₁ ++ l₂) = levelFolderNames l₁ ++ levelFolderNames l₂ := by
  simp [levelFolderNames, List.filterMap_append]

theorem levelFiles_append (l₁ l₂ : List DocTreeNode) :
    levelFiles (l₁ ++ l₂) = levelFiles l₁ ++ levelFiles l₂ := by
  simp [levelFiles, List.filter_append]

theorem getFolderChildren_append (nm : Str) (l₁ l₂ : List DocTreeNode) :
    getFolderChildren nm (l₁ ++ l₂) =
      match getFolderChildren nm l₁ with
      | some c => some c
      | none => getFolderChildren nm l₂ := by
  induction l₁ with
  | nil => simp [getFolderChildren]
  | cons m t ih =>
    cases m with
    | folder n k c =>
      by_cases hn : n = nm
      · simp [getFolderChildren, hn]
      · simp [getFolderChildren, hn, ih]
    | file n k r s ti => simp [getFolderChildren, ih]

theorem levelFolderNames_cons_folder (n k : Str) (c : List DocTreeNode)
    (t : List DocTreeNode) :
    levelFolderNames (DocTreeNode.folder n k c :: t) = n :: levelFolderNames t := by
  simp [levelFolderNames]

theorem levelFolderNames_cons_file (n k r : Str) (s : List Str) (ti : Str)
    (t : List DocTreeNode) :
    levelFolderNames (DocTreeNode.file n k r s ti :: t) = levelFolderNames t := by
  simp [levelFolderNames]

theorem getFolderChildren_isSome_iff (nm : Str) (l : List DocTreeNode) :
    (getFolderChildren nm l).isSome = true ↔ nm ∈ levelFolderNames l := by
  induction l with
  | nil => simp [getFolderChildren, levelFolderNames]
  | cons m t ih =>
    cases m with
    | folder n k c =>
      by_cases hn : n = nm
      · subst hn
        simp [getFolderChildren, levelFolderNames_cons_folder]
      · have h₁ : getFolderChildren nm (DocTreeNode.folder n k c :: t) =
            getFolderChildren nm t := by
          simp [getFolderChildren, hn]
        rw [h₁, levelFolderNames_cons_folder, ih]
        constructor
        · exact fun h => List.mem_cons_of_mem _ h
        · intro h
          rcases List.mem_cons.1 h with heq | h
          · exact absurd heq.symm hn
          · exact h
    | file n k r s ti =>
      rw [show getFolderChildren nm (DocTreeNode.file n k r s ti :: t) =
          getFolderChildren nm t from rfl, levelFolderNames_cons_file, ih]

theorem replaceFolderChildren_none_iff (name : Str) (g : List DocTreeNode → List DocTreeNode)
    (l : List DocTreeNode) :
    replaceFolderChildren name g l = none ↔ name ∉ levelFolderNames l := by
  induction l with
  | nil => simp [replaceFolderChildren, levelFolderNames]
  | cons m t ih =>
    cases m with
    | folder n k c =>
      by_cases hn : n = name
      · subst hn
        simp [replaceFolderChildren, levelFolderNames_cons_folder]
      · have h₁ : replaceFolderChildren name g (DocTreeNode.folder n k c :: t) =
            match replaceFolderChildren name g t with
            | some t' => some (DocTreeNode.folder n k c :: t')
            | none => none := by
          simp [replaceFolderChildren, hn]
        rw [h₁, levelFolderNames_cons_folder]
        cases hr : replaceFolderChildren name g t with
        | some t' =>
          rw [hr] at ih
          have hmem : name ∈ levelFolderNames t := by
            by_contra hno
            exact absurd (ih.2 hno) (by simp)
          constructor
          · intro hcontra
            exact absurd hcontra (by simp)
          · intro hmem2
            exact absurd (List.mem_cons_of_mem _ hmem) hmem2
        | none =>
          rw [hr] at ih
          have hmem : name ∉ levelFolderNames t := ih.1 rfl
          constructor
          · intro _ hmem2
            rcases List.mem_cons.1 hmem2 with heq | hmem3
            · exact hn heq.symm
            · exact hmem hmem3
          · intro _
            rfl
    | file n k r s ti =>
      have h₁ : replaceFolderChildren name g (DocTreeNode.file n k r s ti :: t) =
          match replaceFolderChildren name g t with
          | some t' => some (DocTreeNode.file n k r s ti :: t')
          | none => none := by
        simp [replaceFolderChildren]
      rw [h₁, levelFolderNames_cons_file]
      cases hr : replaceFolderChildren name g t with
      | some t' =>
        rw [hr] at ih
        have hmem : name ∈ levelFolderNames t := by
          by_contra hno
          exact absurd (ih.2 hno) (by simp)
        constructor
        · intro hcontra
          exact absurd hcontra (by simp)
        · intro hmem2
          exact absurd hmem hmem2
      | none =>
        rw [hr] at ih
        exact ⟨fun _ => ih.1 rfl, fun _ => rfl⟩

theorem rfc_eq (name : Str) (g : List DocTreeNode → List DocTreeNode) :
    ∀ {l l' : List DocTreeNode}, replaceFolderChildren name g l = some l' →
      ∃ pre k c post, l = pre ++ DocTreeNode.folder name k c :: post ∧
        l' = pre ++ DocTreeNode.folder name k (g c) :: post ∧
        name ∉ levelFolderNames pre := by
  intro l
  induction l with
  | nil => intro l' h; exact absurd h (by simp [replaceFolderChildren])
  | cons m t ih =>
    intro l' h
    cases m with
    | folder n k c =>
      simp only [replaceFolderChildren] at h
      split at h
      · rename_i hn
        injection h with h
        subst h
        refine ⟨[], k, c, t, ?_, ?_, by simp [levelFolderNames]⟩
        · rw [hn]; rfl
        · rw [hn]; rfl
      · rename_i hn
        split at h
        · rename_i t' heq
          injection h with h
          subst h
          obtain ⟨pre, k', c', post, h1, h2, h3⟩ := ih heq
          refine ⟨DocTreeNode.folder n k c :: pre, k', c', post, ?_, ?_, ?_⟩
          · rw [h1]; rfl
          · rw [h2]; rfl
          · rw [levelFolderNames_cons_folder]
            intro hmem
            rcases List.mem_cons.1 hmem with heq2 | hmem2
            · exact hn heq2.symm
            · exact h3 hmem2
        · exact Option.noConfusion h
    | file n k r s ti =>
      simp only [replaceFolderChildren] at h
      split at h
      · rename_i t' heq
        injection h with h
        subst h
        obtain ⟨pre, k', c', post, h1, h2, h3⟩ := ih heq
        refine ⟨DocTreeNode.file n k r s ti :: pre, k', c', post, ?_, ?_, ?_⟩
        · rw [h1]; rfl
        · rw [h2]; rfl
        · rw [levelFolderNames_cons_file]; exact h3
      · exact Option.noConfusion h

theorem rfc_files (name : Str) (g : List DocTreeNode → List DocTreeNode)
    {l l' : List DocTreeNode} (h : replaceFolderChildren name g l = some l') :
    levelFiles l' = levelFiles l := by
  obtain ⟨pre, k, c, post, h1, h2, h3⟩ := rfc_eq name g h
  subst h1
  subst h2
  rw [levelFiles_append, levelFiles_append]
  simp [levelFiles, isFileNode]

theorem rfc_names (name : Str) (g : List DocTreeNode → List DocTreeNode)
    {l l' : List DocTreeNode} (h : replaceFolderChildren name g l = some l') :
    levelFolderNames l' = levelFolderNames l := by
  obtain ⟨pre, k, c, post, h1, h2, h3⟩ := rfc_eq name g h
  subst h1
  subst h2
  rw [levelFolderNames_append, levelFolderNames_append,
    levelFolderNames_cons_folder, levelFolderNames_cons_folder]

theorem rfc_children (name : Str) (g : List DocTreeNode → List DocTreeNode)
    {l l' : List DocTreeNode} (h : replaceFolderChildren name g l = some l') (nm : Str) :
    getFolderChildren nm l' =
      if nm = name then Option.map g (getFolderChildren nm l) else getFolderChildren nm l := by
  obtain ⟨pre, k, c, post, h1, h2, h3⟩ := rfc_eq name g h
  subst h1
  subst h2
  rw [getFolderChildren_append, getFolderChildren_append]
  by_cases hnm : nm = name
  · subst hnm
    have hpre : getFolderChildren nm pre = none := by
      cases hp : getFolderChildren nm pre with
      | none => rfl
      | some c₀ =>
        exact absurd ((getFolderChildren_isSome_iff nm pre).1 (by rw [hp]; rfl)) h3
    rw [hpre]
    simp [getFolderChildren]
  · rw [if_neg hnm]
    have hni : ¬ (name = nm) := fun he => hnm he.symm
    cases hp : getFolderChildren nm pre with
    | some c₀ => rfl
    | none => simp [getFolderChildren, hni]

theorem rfc_keys (pfx name : Str) (g : List DocTreeNode → List DocTreeNode)
    {l l' : List DocTreeNode} (hk : LevelKeys pfx l)
    (h : replaceFolderChildren name g l = some l') : LevelKeys pfx l' := by
  obtain ⟨pre, k, c, post, h1, h2, h3⟩ := rfc_eq name g h
  subst h1
  subst h2
  intro n k' c' hmem
  rcases List.mem_append.1 hmem with hm | hm
  · exact hk n k' c' (List.mem_append_left _ hm)
  · rcases List.mem_cons.1 hm with he | hm2
    · injection he with e1 e2 e3
      rw [e1, e2]
      exact hk name k c (List.mem_append_right _ (List.mem_cons_self _ _))
    · exact hk n k' c' (List.mem_append_right _ (List.mem_cons_of_mem _ hm2))

theorem ins_files_nil (l : List DocTreeNode) (pfx : Str) {f : DocTreeNode}
    (h : isFileNode f = true) :
    levelFiles (insertIntoLevel l pfx [] f) = levelFiles l ++ [f] := by
  show levelFiles (l ++ [f]) = levelFiles l ++ [f]
  rw [levelFiles_append]
  simp [levelFiles, h]

theorem ins_files_cons (l : List DocTreeNode) (pfx : Str) (s : Str) (rest : List Str)
    (f : DocTreeNode) :
    levelFiles (insertIntoLevel l pfx (s :: rest) f) = levelFiles l := by
  simp only [insertIntoLevel]
  cases hr : replaceFolderChildren s (fun c => insertIntoLevel c (joinKey pfx s) rest f) l with
  | some l' => exact rfc_files _ _ hr
  | none =>
    rw [levelFiles_append]
    simp [levelFiles, isFileNode]

theorem ins_names_nil (l : List DocTreeNode) (pfx : Str) {f : DocTreeNode}
    (h : isFileNode f = true) :
    levelFolderNames (insertIntoLevel l pfx [] f) = levelFolderNames l := by
  show levelFolderNames (l ++ [f]) = levelFolderNames l
  rw [levelFolderNames_append]
  cases f with
  | folder n k c => simp [isFileNode] at h
  | file n k r s t => simp [levelFolderNames]

theorem ins_names_cons (l : List DocTreeNode) (pfx : Str) (s : Str) (rest : List Str)
    (f : DocTreeNode) :
    levelFolderNames (insertIntoLevel l pfx (s :: rest) f) =
      if s ∈ levelFolderNames l then levelFolderNames l
      else levelFolderNames l ++ [s] := by
  simp only [insertIntoLevel]
  cases hr : replaceFolderChildren s (fun c => insertIntoLevel c (joinKey pfx s) rest f) l with
  | some l' =>
    have hmem : s ∈ levelFolderNames l := by
      by_contra hno
      rw [(replaceFolderChildren_none_iff s _ l).2 hno] at hr
      exact Option.noConfusion hr
    rw [if_pos hmem]
    exact rfc_names _ _ hr
  | none =>
    have hno : s ∉ levelFolderNames l := (replaceFolderChildren_none_iff s _ l).1 hr
    rw [if_neg hno, levelFolderNames_append, levelFolderNames_cons_folder]
    rfl

theorem ins_children_nil (l : List DocTreeNode) (pfx : Str) {f : DocTreeNode}
    (h : isFileNode f = true) (nm : Str) :
    getFolderChildren nm (insertIntoLevel l pfx [] f) = getFolderChildren nm l := by
  show getFolderChildren nm (l ++ [f]) = getFolderChildren nm l
  rw [getFolderChildren_append]
  cases f with
  | folder n k c => simp [isFileNode] at h
  | file n k r s t =>
    cases hg : getFolderChildren nm l with
    | some c => rfl
    | none => simp [getFolderChildren]

theorem ins_children_cons (l : List DocTreeNode) (pfx : Str) (s : Str) (rest : List Str)
    (f : DocTreeNode) (nm : Str) :
    getFolderChildren nm (insertIntoLevel l pfx (s :: rest) f) =
      if nm = s then
        some (insertIntoLevel ((getFolderChildren s l).getD []) (joinKey pfx s) rest f)
      else getFolderChildren nm l := by
  simp only [insertIntoLevel]
  cases hr : replaceFolderChildren s (fun c => insertIntoLevel c (joinKey pfx s) rest f) l with
  | some l' =>
    have h2 := rfc_children s _ hr nm
    by_cases hnm : nm = s
    · subst hnm
      rw [if_pos rfl] at h2 ⊢
      rw [h2]
      have hmem : nm ∈ levelFolderNames l := by
        by_contra hno
        rw [(replaceFolderChildren_none_iff nm _ l).2 hno] at hr
        exact Option.noConfusion hr
      obtain ⟨c, hc⟩ := Option.isSome_iff_exists.1 ((getFolderChildren_isSome_iff nm l).2 hmem)
      rw [hc]
      rfl
    · rw [if_neg hnm] at h2 ⊢
      exact h2
  | none =>
    have hno : s ∉ levelFolderNames l := (replaceFolderChildren_none_iff s _ l).1 hr
    have hgc : getFolderChildren s l = none := by
      cases hg : getFolderChildren s l with
      | none => rfl
      | some c =>
        exact absurd ((getFolderChildren_isSome_iff s l).1 (by rw [hg]; rfl)) hno
    rw [getFolderChildren_append]
    by_cases hnm : nm = s
    · subst hnm
      rw [hgc, if_pos rfl]
      simp [getFolderChildren, hgc]
    · rw [if_neg hnm]
      have hni : ¬ (s = nm) := fun he => hnm he.symm
      cases hg2 : getFolderChildren nm l with
      | some c => rfl
      | none => simp [getFolderChildren, hni]

theorem ins_keys (l : List DocTreeNode) (pfx : Str) (segs : List Str) {f : DocTreeNode}
    (hf : isFileNode f = true) (hk : LevelKeys pfx l) :
    LevelKeys pfx (insertIntoLevel l pfx segs f) := by
  cases segs with
  | nil =>
    show LevelKeys pfx (l ++ [f])
    intro n k c hmem
    rcases List.mem_append.1 hmem with hm | hm
    · exact hk n k c hm
    · rcases List.mem_cons.1 hm with he | hm2
      · cases f with
        | folder n' k' c' => simp [isFileNode] at hf
        | file n' k' r' s' t' => exact DocTreeNode.noConfusion he
      · exact absurd hm2 (List.not_mem_nil _)
  | cons s rest =>
    simp only [insertIntoLevel]
    cases hr : replaceFolderChildren s (fun c => insertIntoLevel c (joinKey pfx s) rest f) l with
    | some l' => exact rfc_keys pfx s _ hk hr
    | none =>
      intro n k c hmem
      rcases List.mem_append.1 hmem with hm | hm
      · exact hk n k c hm
      · rcases List.mem_cons.1 hm with he | hm2
        · injection he with e1 e2 e3
          rw [e1, e2]
        · exact absurd hm2 (List.not_mem_nil _)

theorem stepEntries_nil_seg (nm : Str) (f : DocTreeNode) (es : List DocEntry) :
    stepEntries nm ((([] : List Str), f) :: es) = stepEntries nm es := by
  simp [stepEntries]

theorem stepEntries_cons_eq (nm : Str) (r : List Str) (f : DocTreeNode) (es : List DocEntry) :
    stepEntries nm ((nm :: r, f) :: es) = (r, f) :: stepEntries nm es := by
  simp [stepEntries]

theorem stepEntries_cons_ne {s nm : Str} (h : ¬ s = nm) (r : List Str) (f : DocTreeNode)
    (es : List DocEntry) :
    stepEntries nm ((s :: r, f) :: es) = stepEntries nm es := by
  simp [stepEntries, h]

theorem headsOf_nil_seg (f : DocTreeNode) (es : List DocEntry) :
    headsOf ((([] : List Str), f) :: es) = headsOf es := by
  simp [headsOf]

theorem headsOf_cons_seg (s : Str) (r : List Str) (f : DocTreeNode) (es : List DocEntry) :
    headsOf ((s :: r, f) :: es) = s :: headsOf es := by
  simp [headsOf]

theorem filesOf_nil_seg (f : DocTreeNode) (es : List DocEntry) :
    filesOf ((([] : List Str), f) :: es) = f :: filesOf es := by
  simp [filesOf]

theorem filesOf_cons_seg (s : Str) (r : List Str) (f : DocTreeNode) (es : List DocEntry) :
    filesOf ((s :: r, f) :: es) = filesOf es := by
  simp [filesOf]

theorem bu_files (pfx : Str) : ∀ (es : List DocEntry) (acc : List DocTreeNode),
    FilesOnly es → levelFiles (buLevel pfx acc es) = levelFiles acc ++ filesOf es := by
  intro es
  induction es with
  | nil => intro acc _; simp [buLevel, filesOf]
  | cons e rest ih =>
    intro acc hfo
    have hf : isFileNode e.2 = true := hfo e (List.mem_cons_self _ _)
    have hfo' : FilesOnly rest := fun x hx => hfo x (List.mem_cons_of_mem _ hx)
    obtain ⟨segs, f⟩ := e
    show levelFiles (buLevel pfx (insertIntoLevel acc pfx segs f) rest) = _
    cases segs with
    | nil =>
      rw [ih _ hfo', ins_files_nil _ _ hf, filesOf_nil_seg]
      simp
    | cons s r =>
      rw [ih _ hfo', ins_files_cons, filesOf_cons_seg]

theorem bu_names (pfx : Str) : ∀ (es : List DocEntry) (acc : List DocTreeNode),
    FilesOnly es →
    levelFolderNames (buLevel pfx acc es) = accNames (levelFolderNames acc) es := by
  intro es
  induction es with
  | nil => intro acc _; rfl
  | cons e rest ih =>
    intro acc hfo
    have hf : isFileNode e.2 = true := hfo e (List.mem_cons_self _ _)
    have hfo' : FilesOnly rest := fun x hx => hfo x (List.mem_cons_of_mem _ hx)
    obtain ⟨segs, f⟩ := e
    show levelFolderNames (buLevel pfx (insertIntoLevel acc pfx segs f) rest) = _
    cases segs with
    | nil =>
      rw [ih _ hfo', ins_names_nil _ _ hf]
      rfl
    | cons s r =>
      rw [ih _ hfo', ins_names_cons]
      rfl

theorem bu_children (pfx : Str) : ∀ (es : List DocEntry) (acc : List DocTreeNode) (nm : Str),
    FilesOnly es →
    getFolderChildren nm (buLevel pfx acc es) =
      match getFolderChildren nm acc with
      | some c => some (buLevel (joinKey pfx nm) c (stepEntries nm es))
      | none =>
        if nm ∈ headsOf es then some (buLevel (joinKey pfx nm) [] (stepEntries nm es))
        else none := by
  intro es
  induction es with
  | nil =>
    intro acc nm _
    show getFolderChildren nm acc = _
    cases hg : getFolderChildren nm acc with
    | some c => rfl
    | none => simp [headsOf]
  | cons e rest ih =>
    intro acc nm hfo
    have hf : isFileNode e.2 = true := hfo e (List.mem_cons_self _ _)
    have hfo' : FilesOnly rest := fun x hx => hfo x (List.mem_cons_of_mem _ hx)
    obtain ⟨segs, f⟩ := e
    show getFolderChildren nm (buLevel pfx (insertIntoLevel acc pfx segs f) rest) = _
    rw [ih _ nm hfo']
    cases segs with
    | nil =>
      rw [ins_children_nil _ _ hf, stepEntries_nil_seg, headsOf_nil_seg]
    | cons s r =>
      by_cases hnm : nm = s
      · subst hnm
        have h1 : getFolderChildren nm (insertIntoLevel acc pfx (nm :: r) f) =
            some (insertIntoLevel ((getFolderChildren nm acc).getD []) (joinKey pfx nm) r f) := by
          rw [ins_children_cons, if_pos rfl]
        rw [h1, stepEntries_cons_eq, headsOf_cons_seg]
        cases hg : getFolderChildren nm acc with
        | some c => rfl
        | none =>
          rw [if_pos (List.mem_cons_self nm (headsOf rest))]
          rfl
      · have h1 : getFolderChildren nm (insertIntoLevel acc pfx (s :: r) f) =
            getFolderChildren nm acc := by
          rw [ins_children_cons, if_neg hnm]
        rw [h1, stepEntries_cons_ne (fun he => hnm he.symm), headsOf_cons_seg]
        cases hg : getFolderChildren nm acc with
        | some c => rfl
        | none => exact if_congr ((List.mem_cons.trans (or_iff_right hnm)).symm) rfl rfl

theorem bu_keys (pfx : Str) : ∀ (es : List DocEntry) (acc : List DocTreeNode),
    FilesOnly es → LevelKeys pfx acc → LevelKeys pfx (buLevel pfx acc es) := by
  intro es
  induction es with
  | nil => intro acc _ hk; exact hk
  | cons e rest ih =>
    intro acc hfo hk
    have hf : isFileNode e.2 = true := hfo e (List.mem_cons_self _ _)
    have hfo' : FilesOnly rest := fun x hx => hfo x (List.mem_cons_of_mem _ hx)
    exact ih _ hfo' (ins_keys _ _ _ hf hk)

theorem accNames_nodup : ∀ (es : List DocEntry) (ns : List Str), ns.Nodup →
    (accNames ns es).Nodup := by
  intro es
  induction es with
  | nil => intro ns h; exact h
  | cons e rest ih =>
    intro ns h
    obtain ⟨segs, f⟩ := e
    cases segs with
    | nil => exact ih ns h
    | cons s r =>
      show (accNames (if s ∈ ns then ns else ns ++ [s]) rest).Nodup
      by_cases hm : s ∈ ns
      · rw [if_pos hm]; exact ih ns h
      · rw [if_neg hm]
        refine ih _ ?_
        simp [List.nodup_append, h, hm]

theorem accNames_mem : ∀ (es : List DocEntry) (ns : List Str) (nm : Str),
    nm ∈ accNames ns es ↔ nm ∈ ns ∨ nm ∈ headsOf es := by
  intro es
  induction es with
  | nil => intro ns nm; simp [accNames, headsOf]
  | cons e rest ih =>
    intro ns nm
    obtain ⟨segs, f⟩ := e
    cases segs with
    | nil =>
      rw [headsOf_nil_seg]
      exact ih ns nm
    | cons s r =>
      rw [headsOf_cons_seg]
      show nm ∈ accNames (if s ∈ ns then ns else ns ++ [s]) rest ↔ _
      by_cases hm : s ∈ ns
      · rw [if_pos hm, ih]
        constructor
        · rintro (h | h)
          · exact Or.inl h
          · exact Or.inr (List.mem_cons_of_mem _ h)
        · rintro (h | h)
          · exact Or.inl h
          · rcases List.mem_cons.1 h with rfl | h2
            · exact Or.inl hm
            · exact Or.inr h2
      · rw [if_neg hm, ih]
        simp only [List.mem_append, List.mem_cons, List.mem_singleton]
        tauto

theorem entriesMeasure_cons (segs : List Str) (f : DocTreeNode) (es : List DocEntry) :
    entriesMeasure ((segs, f) :: es) = segs.length + 1 + entriesMeasure es := by
  simp [entriesMeasure]

theorem entriesMeasure_step_le (nm : Str) : ∀ es : List DocEntry,
    entriesMeasure (stepEntries nm es) ≤ entriesMeasure es := by
  intro es
  induction es with
  | nil => exact Nat.le_refl _
  | cons e rest ih =>
    obtain ⟨segs, f⟩ := e
    rw [entriesMeasure_cons]
    cases segs with
    | nil =>
      rw [stepEntries_nil_seg]
      omega
    | cons s r =>
      by_cases hs : s = nm
      · subst hs
        rw [stepEntries_cons_eq, entriesMeasure_cons]
        simp only [List.length_cons]
        omega
      · rw [stepEntries_cons_ne hs]
        omega

theorem entriesMeasure_step_lt (nm : Str) : ∀ es : List DocEntry, nm ∈ headsOf es →
    entriesMeasure (stepEntries nm es) < entriesMeasure es := by
  intro es
  induction es with
  | nil => intro h; exact absurd h (by simp [headsOf])
  | cons e rest ih =>
    intro hm
    obtain ⟨segs, f⟩ := e
    rw [entriesMeasure_cons]
    cases segs with
    | nil =>
      rw [headsOf_nil_seg] at hm
      rw [stepEntries_nil_seg]
      have := ih hm
      omega
    | cons s r =>
      by_cases hs : s = nm
      · subst hs
        rw [stepEntries_cons_eq, entriesMeasure_cons]
        have hle := entriesMeasure_step_le s rest
        simp only [List.length_cons]
        omega
      · rw [stepEntries_cons_ne hs]
        rw [headsOf_cons_seg] at hm
        rcases List.mem_cons.1 hm with he | hm2
        · exact absurd he.symm hs
        · have := ih hm2
          omega

theorem filesOnly_perm {es es' : List DocEntry} (h : es.Perm es') (hf : FilesOnly es) :
    FilesOnly es' := fun e he => hf e (h.symm.subset he)

theorem entryInj_perm {es es' : List DocEntry} (h : es.Perm es') (hi : EntryInj es) :
    EntryInj es' := fun a ha b hb => hi a (h.symm.subset ha) b (h.symm.subset hb)

theorem filesOnly_step (nm : Str) {es : List DocEntry} (hf : FilesOnly es) :
    FilesOnly (stepEntries nm es) := by
  intro e he
  simp only [stepEntries, List.mem_filterMap] at he
  obtain ⟨a, ha, hae⟩ := he
  split at hae
  · split at hae
    · injection hae with hae
      subst hae
      exact hf a ha
    · exact Option.noConfusion hae
  · exact Option.noConfusion hae

theorem entryInj_step (nm : Str) {es : List DocEntry} (hi : EntryInj es) :
    EntryInj (stepEntries nm es) := by
  intro a ha b hb h1 h2
  simp only [stepEntries, List.mem_filterMap] at ha hb
  obtain ⟨a₀, ha₀, hae⟩ := ha
  obtain ⟨b₀, hb₀, hbe⟩ := hb
  split at hae
  · rename_i sa ra heqa
    split at hae
    · rename_i hsa
      injection hae with hae
      split at hbe
      · rename_i sb rb heqb
        split at hbe
        · rename_i hsb
          injection hbe with hbe
          subst hae
          subst hbe
          have h3 : a₀.1 = b₀.1 := by
            rw [heqa, heqb, hsa, hsb]
            rw [show ra = rb from h1]
          exact hi a₀ ha₀ b₀ hb₀ h3 h2
        · exact Option.noConfusion hbe
      · exact Option.noConfusion hbe
    · exact Option.noConfusion hae
  · exact Option.noConfusion hae

theorem stepEntries_perm (nm : Str) {es es' : List DocEntry} (h : es.Perm es') :
    (stepEntries nm es).Perm (stepEntries nm es') := h.filterMap _

theorem headsOf_perm {es es' : List DocEntry} (h : es.Perm es') :
    (headsOf es).Perm (headsOf es') := h.filterMap _

theorem filesOf_perm {es es' : List DocEntry} (h : es.Perm es') :
    (filesOf es).Perm (filesOf es') := h.filterMap _

theorem levelFolderNames_eq_map : ∀ l : List DocTreeNode,
    levelFolderNames l = (l.filter isFolderNode).map nodeName := by
  intro l
  induction l with
  | nil => rfl
  | cons m t ih =>
    cases m with
    | folder n k c =>
      rw [levelFolderNames_cons_folder, ih,
        List.filter_cons_of_pos (by simp [isFolderNode]), List.map_cons]
      rfl
    | file n k r s ti =>
      rw [levelFolderNames_cons_file, ih,
        List.filter_cons_of_neg (by simp [isFolderNode])]

theorem isFileNode_eq_not_isFolderNode (m : DocTreeNode) : isFileNode m = !isFolderNode m := by
  cases m <;> rfl

theorem level_filter_eq_canon (pfx : Str) (C : Str → List DocTreeNode) :
    ∀ l : List DocTreeNode,
    (levelFolderNames l).Nodup →
    LevelKeys pfx l →
    (∀ nm ∈ levelFolderNames l, getFolderChildren nm l = some (C nm)) →
    l.filter isFolderNode =
      (levelFolderNames l).map (fun nm => DocTreeNode.folder nm (joinKey pfx nm) (C nm)) := by
  intro l
  induction l with
  | nil => intro _ _ _; rfl
  | cons m t ih =>
    intro hnd hk hc
    cases m with
    | folder n k c =>
      rw [levelFolderNames_cons_folder] at hnd hc ⊢
      have hnmem : n ∉ levelFolderNames t := (List.nodup_cons.1 hnd).1
      have hndt : (levelFolderNames t).Nodup := (List.nodup_cons.1 hnd).2
      have hkey : k = joinKey pfx n := hk n k c (List.mem_cons_self _ _)
      have hcn : c = C n := by
        have h5 := hc n (List.mem_cons_self _ _)
        rw [show getFolderChildren n (DocTreeNode.folder n k c :: t) = some c from by
          simp [getFolderChildren]] at h5
        exact Option.some.inj h5
      have hk' : LevelKeys pfx t := fun n' k' c' hm => hk n' k' c' (List.mem_cons_of_mem _ hm)
      have hc' : ∀ nm ∈ levelFolderNames t, getFolderChildren nm t = some (C nm) := by
        intro nm hm
        have hne : ¬ (n = nm) := fun he => hnmem (he ▸ hm)
        have h5 := hc nm (List.mem_cons_of_mem _ hm)
        rw [show getFolderChildren nm (DocTreeNode.folder n k c :: t) =
            getFolderChildren nm t from by simp [getFolderChildren, hne]] at h5
        exact h5
      rw [List.filter_cons_of_pos (by simp [isFolderNode]), ih hndt hk' hc',
        List.map_cons, hkey, hcn]
    | file n k r s ti =>
      rw [levelFolderNames_cons_file] at hnd hc ⊢
      have hk' : LevelKeys pfx t := fun n' k' c' hm => hk n' k' c' (List.mem_cons_of_mem _ hm)
      have hc' : ∀ nm ∈ levelFolderNames t, getFolderChildren nm t = some (C nm) :=
        fun nm hm => hc nm hm
      rw [List.filter_cons_of_neg (by simp [isFolderNode])]
      exact ih hnd hk' hc'

theorem sortedTree_sortTreeNode_aux {cmp : Str → Str → Int} (hc : IsLinearCmp cmp) :
    ∀ (N : Nat) (m : DocTreeNode), sizeOf m ≤ N → SortedTree cmp (sortTreeNode cmp m) := by
  intro N
  induction N with
  | zero =>
    intro m hm
    exfalso
    have h1 : 0 < sizeOf m := by
      cases m with
      | folder n k c =>
        simp only [DocTreeNode.folder.sizeOf_spec]
        omega
      | file n k r s t =>
        simp only [DocTreeNode.file.sizeOf_spec]
        omega
    omega
  | succ N ihN =>
    intro m hm
    cases m with
    | file n k r s t => exact SortedTree.file n k r s t
    | folder n k c =>
      rw [sortTreeNode_folder]
      refine SortedTree.folder n k _ ?_ ?_
      · exact List.sorted_mergeSort (fun a b c' => nodeLe_trans hc a b c') (nodeLe_total hc) _
      · intro x hx
        have hx2 : x ∈ sortNodeList cmp c := List.mem_mergeSort.1 hx
        rw [sortNodeList_eq_map, List.mem_map] at hx2
        obtain ⟨y, hy, rfl⟩ := hx2
        refine ihN y ?_
        have h1 : sizeOf y < sizeOf c := List.sizeOf_lt_of_mem hy
        have h2 : sizeOf c < sizeOf (DocTreeNode.folder n k c) := by
          simp only [DocTreeNode.folder.sizeOf_spec]
          omega
        omega

theorem sortedTree_sortTreeNode {cmp : Str → Str → Int} (hc : IsLinearCmp cmp)
    (m : DocTreeNode) : SortedTree cmp (sortTreeNode cmp m) :=
  sortedTree_sortTreeNode_aux hc (sizeOf m) m (Nat.le_refl _)

theorem map_sortTreeNode_files (cmp : Str → Str → Int) :
    ∀ fs : List DocTreeNode, (∀ x ∈ fs, isFileNode x = true) →
      fs.map (sortTreeNode cmp) = fs := by
  intro fs
  induction fs with
  | nil => intro _; rfl
  | cons x t ih =>
    intro h
    rw [List.map_cons, sortTreeNode_file (h x (List.mem_cons_self _ _)),
      ih (fun y hy => h y (List.mem_cons_of_mem _ hy))]

theorem filesOf_mem_decode {es : List DocEntry} {x : DocTreeNode} (hx : x ∈ filesOf es) :
    ∃ e, e ∈ es ∧ e.1 = [] ∧ e.2 = x := by
  simp only [filesOf, List.mem_filterMap] at hx
  obtain ⟨e, he, hee⟩ := hx
  split at hee
  · rename_i heq
    injection hee with hee
    exact ⟨e, he, heq, hee⟩
  · exact Option.noConfusion hee

theorem buLevel_sortTree_eq {cmp : Str → Str → Int} (hc : IsLinearCmp cmp) :
    ∀ (N : Nat) (pfx : Str) (es es' : List DocEntry), entriesMeasure es ≤ N →
    es.Perm es' → FilesOnly es → EntryInj es →
    sortTree cmp (buLevel pfx [] es) = sortTree cmp (buLevel pfx [] es') := by
  intro N
  induction N with
  | zero =>
    intro pfx es es' hN hperm _ _
    have hes : es = [] := by
      cases es with
      | nil => rfl
      | cons e rest =>
        obtain ⟨segs, f⟩ := e
        rw [entriesMeasure_cons] at hN
        omega
    subst hes
    rw [← hperm.nil_eq]
  | succ N ihN =>
    intro pfx es es' hN hperm hfo hinj
    have hfo' : FilesOnly es' := filesOnly_perm hperm hfo
    have hinj' : EntryInj es' := entryInj_perm hperm hinj
    have h_names : levelFolderNames (buLevel pfx [] es) = accNames [] es :=
      bu_names pfx es [] hfo
    have h_names' : levelFolderNames (buLevel pfx [] es') = accNames [] es' :=
      bu_names pfx es' [] hfo'
    have h_files : levelFiles (buLevel pfx [] es) = filesOf es := bu_files pfx es [] hfo
    have h_files' : levelFiles (buLevel pfx [] es') = filesOf es' := bu_files pfx es' [] hfo'
    have h_children : ∀ nm ∈ accNames [] es, getFolderChildren nm (buLevel pfx [] es) =
        some (buLevel (joinKey pfx nm) [] (stepEntries nm es)) := by
      intro nm hm
      have hmh : nm ∈ headsOf es := ((accNames_mem es [] nm).1 hm).resolve_left
        (List.not_mem_nil nm)
      rw [bu_children pfx es [] nm hfo]
      simp [getFolderChildren, hmh]
    have h_children' : ∀ nm ∈ accNames [] es', getFolderChildren nm (buLevel pfx [] es') =
        some (buLevel (joinKey pfx nm) [] (stepEntries nm es')) := by
      intro nm hm
      have hmh : nm ∈ headsOf es' := ((accNames_mem es' [] nm).1 hm).resolve_left
        (List.not_mem_nil nm)
      rw [bu_children pfx es' [] nm hfo']
      simp [getFolderChildren, hmh]
    have h_keys : LevelKeys pfx (buLevel pfx [] es) :=
      bu_keys pfx es [] hfo (fun n k c h => absurd h (List.not_mem_nil _))
    have h_keys' : LevelKeys pfx (buLevel pfx [] es') :=
      bu_keys pfx es' [] hfo' (fun n k c h => absurd h (List.not_mem_nil _))
    have hD : (accNames [] es).Nodup := accNames_nodup es [] List.nodup_nil
    have hD' : (accNames [] es').Nodup := accNames_nodup es' [] List.nodup_nil
    have h_nodup : (levelFolderNames (buLevel pfx [] es)).Nodup := by
      rw [h_names]
      exact hD
    have h_nodup' : (levelFolderNames (buLevel pfx [] es')).Nodup := by
      rw [h_names']
      exact hD'
    have h_filter : (buLevel pfx [] es).filter isFolderNode =
        (accNames [] es).map (canonFolder pfx es) := by
      have h6 := level_filter_eq_canon pfx
        (fun nm => buLevel (joinKey pfx nm) [] (stepEntries nm es)) (buLevel pfx [] es)
        h_nodup h_keys (by rw [h_names]; exact h_children)
      rw [h_names] at h6
      exact h6
    have h_filter' : (buLevel pfx [] es').filter isFolderNode =
        (accNames [] es').map (canonFolder pfx es') := by
      have h6 := level_filter_eq_canon pfx
        (fun nm => buLevel (joinKey pfx nm) [] (stepEntries nm es')) (buLevel pfx [] es')
        h_nodup' h_keys' (by rw [h_names']; exact h_children')
      rw [h_names'] at h6
      exact h6
    have hff : ∀ l : List DocTreeNode, l.filter (fun x => !isFolderNode x) = levelFiles l :=
      fun l => List.filter_congr (fun x _ => (isFileNode_eq_not_isFolderNode x).symm)
    have permA : (buLevel pfx [] es).Perm
        ((accNames [] es).map (canonFolder pfx es) ++ filesOf es) := by
      have h7 : (buLevel pfx [] es).filter isFolderNode ++
          (buLevel pfx [] es).filter (fun x => !isFolderNode x) =
          (accNames [] es).map (canonFolder pfx es) ++ filesOf es := by
        rw [h_filter, hff, h_files]
      exact h7 ▸ (List.filter_append_perm isFolderNode (buLevel pfx [] es)).symm
    have permA' : (buLevel pfx [] es').Perm
        ((accNames [] es').map (canonFolder pfx es') ++ filesOf es') := by
      have h7 : (buLevel pfx [] es').filter isFolderNode ++
          (buLevel pfx [] es').filter (fun x => !isFolderNode x) =
          (accNames [] es').map (canonFolder pfx es') ++ filesOf es' := by
        rw [h_filter', hff, h_files']
      exact h7 ▸ (List.filter_append_perm isFolderNode (buLevel pfx [] es')).symm
    have hfilesF : ∀ x ∈ filesOf es, isFileNode x = true := by
      intro x hx
      obtain ⟨e, he, h1, h2⟩ := filesOf_mem_decode hx
      rw [← h2]
      exact hfo e he
    have hfilesF' : ∀ x ∈ filesOf es', isFileNode x = true := by
      intro x hx
      obtain ⟨e, he, h1, h2⟩ := filesOf_mem_decode hx
      rw [← h2]
      exact hfo' e he
    have hheads : ∀ nm ∈ accNames [] es, nm ∈ headsOf es :=
      fun nm hm => ((accNames_mem es [] nm).1 hm).resolve_left (List.not_mem_nil nm)
    have h_canon_eq : ∀ nm ∈ accNames [] es,
        sortTreeNode cmp (canonFolder pfx es nm) =
          sortTreeNode cmp (canonFolder pfx es' nm) := by
      intro nm hm
      have hmh := hheads nm hm
      have hmeas : entriesMeasure (stepEntries nm es) ≤ N := by
        have := entriesMeasure_step_lt nm es hmh
        omega
      have hrec := ihN (joinKey pfx nm) (stepEntries nm es) (stepEntries nm es') hmeas
        (stepEntries_perm nm hperm) (filesOnly_step nm hfo) (entryInj_step nm hinj)
      calc sortTreeNode cmp (canonFolder pfx es nm)
          = DocTreeNode.folder nm (joinKey pfx nm)
            (sortTree cmp (buLevel (joinKey pfx nm) [] (stepEntries nm es))) := rfl
        _ = DocTreeNode.folder nm (joinKey pfx nm)
            (sortTree cmp (buLevel (joinKey pfx nm) [] (stepEntries nm es'))) := by rw [hrec]
        _ = sortTreeNode cmp (canonFolder pfx es' nm) := rfl
    have hDperm : (accNames [] es).Perm (accNames [] es') := by
      refine (List.perm_ext_iff_of_nodup hD hD').2 ?_
      intro a
      rw [accNames_mem, accNames_mem]
      simp only [List.not_mem_nil, false_or]
      exact (headsOf_perm hperm).mem_iff
    have permB1 : ((buLevel pfx [] es).map (sortTreeNode cmp)).Perm
        ((accNames [] es).map (sortTreeNode cmp ∘ canonFolder pfx es) ++ filesOf es) := by
      have h8 := permA.map (sortTreeNode cmp)
      rw [List.map_append, List.map_map, map_sortTreeNode_files cmp _ hfilesF] at h8
      exact h8
    have permB1' : ((buLevel pfx [] es').map (sortTreeNode cmp)).Perm
        ((accNames [] es').map (sortTreeNode cmp ∘ canonFolder pfx es') ++ filesOf es') := by
      have h8 := permA'.map (sortTreeNode cmp)
      rw [List.map_append, List.map_map, map_sortTreeNode_files cmp _ hfilesF'] at h8
      exact h8
    have hmapeq : (accNames [] es).map (sortTreeNode cmp ∘ canonFolder pfx es) =
        (accNames [] es).map (sortTreeNode cmp ∘ canonFolder pfx es') :=
      List.map_congr_left (fun nm hm => h_canon_eq nm hm)
    have permB : (sortNodeList cmp (buLevel pfx [] es)).Perm
        (sortNodeList cmp (buLevel pfx [] es')) := by
      rw [sortNodeList_eq_map, sortNodeList_eq_map]
      have h15 : ((accNames [] es).map (sortTreeNode cmp ∘ canonFolder pfx es) ++
          filesOf es).Perm
          ((accNames [] es').map (sortTreeNode cmp ∘ canonFolder pfx es') ++ filesOf es') := by
        rw [hmapeq]
        exact (hDperm.map _).append (filesOf_perm hperm)
      exact (permB1.trans h15).trans permB1'.symm
    have permC : (sortTree cmp (buLevel pfx [] es)).Perm
        (sortTree cmp (buLevel pfx [] es')) :=
      ((List.mergeSort_perm _ _).trans permB).trans (List.mergeSort_perm _ _).symm
    have sorted1 : List.Pairwise (fun a b => nodeLe cmp a b = true)
        (sortTree cmp (buLevel pfx [] es)) :=
      List.sorted_mergeSort (fun a b c => nodeLe_trans hc a b c) (nodeLe_total hc) _
    have sorted2 : List.Pairwise (fun a b => nodeLe cmp a b = true)
        (sortTree cmp (buLevel pfx [] es')) :=
      List.sorted_mergeSort (fun a b c => nodeLe_trans hc a b c) (nodeLe_total hc) _
    have hmemchar : ∀ x ∈ sortTree cmp (buLevel pfx [] es),
        (∃ nm ∈ accNames [] es, x = sortTreeNode cmp (canonFolder pfx es nm)) ∨
        x ∈ filesOf es := by
      intro x hx
      have hx2 : x ∈ (buLevel pfx [] es).map (sortTreeNode cmp) := by
        have h16 := List.mem_mergeSort.1 hx
        rw [sortNodeList_eq_map] at h16
        exact h16
      have hx3 := permB1.mem_iff.1 hx2
      rcases List.mem_append.1 hx3 with hm | hm
      · rcases List.mem_map.1 hm with ⟨nm, hnm, he⟩
        exact Or.inl ⟨nm, hnm, he.symm⟩
      · exact Or.inr hm
    have anti : ∀ a ∈ sortTree cmp (buLevel pfx [] es),
        ∀ b ∈ sortTree cmp (buLevel pfx [] es),
        nodeLe cmp a b = true → nodeLe cmp b a = true → a = b := by
      intro a ha b hb hab hba
      rcases hmemchar a ha with ⟨n₁, hn₁, rfl⟩ | haf
      · rcases hmemchar b hb with ⟨n₂, hn₂, rfl⟩ | hbf
        · have h9 : cmp n₁ n₂ ≤ 0 := of_decide_eq_true hab
          have h10 : cmp n₂ n₁ ≤ 0 := of_decide_eq_true hba
          rw [hc.antisymm n₁ n₂ h9 h10]
        · have hbfile := hfilesF b hbf
          cases b with
          | folder nb kb cb => simp [isFileNode] at hbfile
          | file nb kb rb sb tb =>
            have h10 := of_decide_eq_true hba
            exact absurd h10 (show ¬ (1 : Int) ≤ 0 by norm_num)
      · rcases hmemchar b hb with ⟨n₂, hn₂, rfl⟩ | hbf
        · have hafile := hfilesF a haf
          cases a with
          | folder na ka ca => simp [isFileNode] at hafile
          | file na ka ra sa ta =>
            have h10 := of_decide_eq_true hab
            exact absurd h10 (show ¬ (1 : Int) ≤ 0 by norm_num)
        · obtain ⟨e₁, he₁, hnil₁, hv₁⟩ := filesOf_mem_decode haf
          obtain ⟨e₂, he₂, hnil₂, hv₂⟩ := filesOf_mem_decode hbf
          have hafile := hfilesF a haf
          have hbfile := hfilesF b hbf
          have hnn : nodeName a = nodeName b := by
            cases a with
            | folder na ka ca => simp [isFileNode] at hafile
            | file na ka ra sa ta =>
              cases b with
              | folder nb kb cb => simp [isFileNode] at hbfile
              | file nb kb rb sb tb =>
                have h9 : cmp na nb ≤ 0 := of_decide_eq_true hab
                have h10 : cmp nb na ≤ 0 := of_decide_eq_true hba
                exact hc.antisymm na nb h9 h10
          have h13 : e₁.2 = e₂.2 := hinj e₁ he₁ e₂ he₂ (by rw [hnil₁, hnil₂])
            (by rw [hv₁, hv₂]; exact hnn)
          rw [← hv₁, ← hv₂, h13]
    exact sorted_perm_eq_of_antisymmOn permC sorted1 sorted2 anti

theorem buildDocsTree_eq_buLevel (cmp : Str → Str → Int) (docs : List DocRecord) :
    buildDocsTree cmp docs = sortTree cmp (buLevel [] [] (docs.map entryOf)) := by
  unfold buildDocsTree buLevel
  rw [List.foldl_map]
  rfl

theorem filesOnly_entryOf (docs : List DocRecord) : FilesOnly (docs.map entryOf) := by
  intro e he
  rcases List.mem_map.1 he with ⟨d, hd, rfl⟩
  rfl

theorem nodeName_docFileNode (d : DocRecord) :
    nodeName (docFileNode d) =
      (splitOnChar '/' d.relPath).getLast (splitOnChar_ne_nil '/' d.relPath) := by
  show (splitOnChar '/' d.relPath).getLast?.getD d.title = _
  rw [List.getLast?_eq_getLast _ (splitOnChar_ne_nil '/' d.relPath)]
  rfl

theorem entryInj_entryOf (docs : List DocRecord)
    (hinj : ∀ d ∈ docs, ∀ d' ∈ docs, d.relPath = d'.relPath → d = d') :
    EntryInj (docs.map entryOf) := by
  intro a ha b hb h1 h2
  rcases List.mem_map.1 ha with ⟨d₁, hd₁, rfl⟩
  rcases List.mem_map.1 hb with ⟨d₂, hd₂, rfl⟩
  have hs₁ := splitOnChar_ne_nil '/' d₁.relPath
  have hs₂ := splitOnChar_ne_nil '/' d₂.relPath
  have hlast : (splitOnChar '/' d₁.relPath).getLast hs₁ =
      (splitOnChar '/' d₂.relPath).getLast hs₂ := by
    rw [← nodeName_docFileNode d₁, ← nodeName_docFileNode d₂]
    exact h2
  have hdrop : (splitOnChar '/' d₁.relPath).dropLast =
      (splitOnChar '/' d₂.relPath).dropLast := h1
  have hseg : splitOnChar '/' d₁.relPath = splitOnChar '/' d₂.relPath := by
    rw [← List.dropLast_append_getLast hs₁, ← List.dropLast_append_getLast hs₂, hdrop, hlast]
  have hd : d₁ = d₂ := hinj d₁ hd₁ d₂ hd₂ (splitOnChar_injective '/' hseg)
  rw [hd]

theorem cmpLex_le_iff (a b : Str) : cmpLex a b ≤ 0 ↔ ¬ String.mk b < String.mk a := by
  unfold cmpLex
  rcases lt_trichotomy (String.mk a) (String.mk b) with h | h | h
  · rw [if_pos h]
    constructor
    · intro _ hba
      exact absurd (lt_trans h hba) (lt_irrefl _)
    · intro _
      norm_num
  · rw [if_neg (by rw [h]; exact lt_irrefl _), if_neg (by rw [h]; exact lt_irrefl _)]
    constructor
    · intro _ hba
      rw [h] at hba
      exact absurd hba (lt_irrefl _)
    · intro _
      norm_num
  · rw [if_neg (not_lt.2 (le_of_lt h)), if_pos h]
    constructor
    · intro hc
      norm_num at hc
    · intro hn
      exact absurd h hn

theorem cmpLex_isLinearCmp : IsLinearCmp cmpLex := by
  constructor
  · intro a b
    rcases le_total (String.mk a) (String.mk b) with h | h
    · exact Or.inl ((cmpLex_le_iff a b).2 (not_lt.2 h))
    · exact Or.inr ((cmpLex_le_iff b a).2 (not_lt.2 h))
  · intro a b c hab hbc
    have h1 := not_lt.1 ((cmpLex_le_iff a b).1 hab)
    have h2 := not_lt.1 ((cmpLex_le_iff b c).1 hbc)
    exact (cmpLex_le_iff a c).2 (not_lt.2 (le_trans h1 h2))
  · intro a b hab hba
    have h1 := not_lt.1 ((cmpLex_le_iff a b).1 hab)
    have h2 := not_lt.1 ((cmpLex_le_iff b a).1 hba)
    exact congrArg String.data (le_antisymm h1 h2)

/-- **C7.** `buildDocsTree` (with the name comparison modeled as an abstract
linear order standing for `localeCompare(name, "zh-CN")`) produces a tree in
which every sibling list places all folder nodes before all file nodes and
orders nodes of the same kind by the name comparison — the top level is
pairwise-sorted by the node comparator and every node satisfies `SortedTree` —
and for any two document lists containing the same documents in any order
(relPaths being unique, the standing invariant of the scanned docs list), the
two resulting trees are identical; rebuilding from the same list yields an
identical tree. -/
theorem c7_tree_build (cmp : Str → Str → Int) (hc : IsLinearCmp cmp)
    (docs docs' : List DocRecord)
    (hinj : ∀ d ∈ docs, ∀ d' ∈ docs, d.relPath = d'.relPath → d = d')
    (hperm : docs.Perm docs') :
    List.Pairwise (fun a b => nodeLe cmp a b = true) (buildDocsTree cmp docs) ∧
    (∀ m ∈ buildDocsTree cmp docs, SortedTree cmp m) ∧
    buildDocsTree cmp docs = buildDocsTree cmp docs' ∧
    buildDocsTree cmp docs = buildDocsTree cmp docs := by
  refine ⟨?_, ?_, ?_, rfl⟩
  · rw [buildDocsTree_eq_buLevel]
    exact List.sorted_mergeSort (fun a b c => nodeLe_trans hc a b c) (nodeLe_total hc) _
  · intro m hm
    rw [buildDocsTree_eq_buLevel] at hm
    have hm2 : m ∈ sortNodeList cmp (buLevel [] [] (docs.map entryOf)) :=
      List.mem_mergeSort.1 hm
    rw [sortNodeList_eq_map, List.mem_map] at hm2
    obtain ⟨y, hy, rfl⟩ := hm2
    exact sortedTree_sortTreeNode hc y
  · rw [buildDocsTree_eq_buLevel, buildDocsTree_eq_buLevel]
    exact buLevel_sortTree_eq hc (entriesMeasure (docs.map entryOf)) [] _ _ (Nat.le_refl _)
      (hperm.map entryOf) (filesOnly_entryOf docs) (entryInj_entryOf docs hinj)

theorem c7_tree_build_witness :
    List.Pairwise (fun a b => nodeLe cmpLex a b = true)
      (buildDocsTree cmpLex [sampleDocB, sampleDocA]) ∧
    (∀ m ∈ buildDocsTree cmpLex [sampleDocB, sampleDocA], SortedTree cmpLex m) ∧
    buildDocsTree cmpLex [sampleDocB, sampleDocA] =
      buildDocsTree cmpLex [sampleDocA, sampleDocB] ∧
    buildDocsTree cmpLex [sampleDocB, sampleDocA] =
      buildDocsTree cmpLex [sampleDocB, sampleDocA] :=
  c7_tree_build cmpLex cmpLex_isLinearCmp [sampleDocB, sampleDocA] [sampleDocA, sampleDocB]
    (by decide) (List.Perm.swap sampleDocA sampleDocB [])

end AelinPage
